import Mathlib

/-!
# kdcount: dual-tree range enumeration and Barnes-Hut force summation

A shallow embedding of `kd_enum.c` and `kd_force.c`.

* C `double` is an arbitrary linearly ordered field `R` (exact arithmetic);
  every definition is computable once `R` is, e.g. at `R = ℚ`.
* C arrays reached through a `double *` are functions `Nat → R`.
* A `KDNode` is a leaf (`dim < 0`, no children) or a split node (`dim >= 0`,
  two children `link[0]`, `link[1]`).  The `node->tree` back-reference is
  passed next to the node: all nodes of one tree share it.
* `kdtree.h` is not part of the sources.  Its functions `kd_realminmax`,
  `kd_realdiff` and libm's `sqrt` are the fields of `KDHeader`; theorems
  state what they assume about them.
* Callbacks are state-passing functions on the caller's `userdata`; every
  callback invocation is appended to a call log so that theorems can speak
  about the sequence of calls.
-/

namespace KDCount

/-- A node of the tree (`KDNode` of kdtree.h): index range `[start, start+size)`,
bounding box `min`, `max` (what `kd_node_min`, `kd_node_max` return) and, for a
split node, the split axis and the two children `link[0]`, `link[1]`. -/
inductive KDNode (R : Type) where
  | leaf (start size : Nat) (min max : Nat → R) : KDNode R
  | split (dim : Nat) (start size : Nat) (min max : Nat → R)
      (link0 link1 : KDNode R) : KDNode R

namespace KDNode

variable {R : Type}

/-- The field `node->start`. -/
def start : KDNode R → Nat
  | leaf s _ _ _ => s
  | split _ s _ _ _ _ _ => s

/-- The field `node->size`. -/
def size : KDNode R → Nat
  | leaf _ n _ _ => n
  | split _ _ n _ _ _ _ => n

/-- The field `node->dim`: negative on a leaf. -/
def dim : KDNode R → Int
  | leaf _ _ _ _ => -1
  | split d _ _ _ _ _ _ => (d : Int)

/-- The accessor `kd_node_min(node)`. -/
def kd_node_min : KDNode R → Nat → R
  | leaf _ _ lo _ => lo
  | split _ _ _ lo _ _ _ => lo

/-- The accessor `kd_node_max(node)`. -/
def kd_node_max : KDNode R → Nat → R
  | leaf _ _ _ hi => hi
  | split _ _ _ _ hi _ _ => hi

end KDNode

/-- The tree (`KDTree` of kdtree.h) as far as the traversals read it:
`Nd = input.dims[1]`, the coordinates `input` in the tree's internal order,
the permutation table `ind` and the optional periodic `boxsize`. -/
structure KDTree (R : Type) where
  Nd : Nat
  input : Nat → Nat → R
  ind : Nat → Nat
  boxsize : Option (Nat → R)

/-- Modelled from the spec: `kd_collect` of kdtree.h is missing from the
sources.  It is the storage gather operation: it copies the rows of the
node's index range, in the tree's internal ordering, into a contiguous
buffer; row `k` of the buffer is row `start + k` of the array. -/
def kd_collect {R : Type} (node : KDNode R) (input : Nat → Nat → R) : Nat → Nat → R :=
  fun k d => input (node.start + k) d

/-- The functions of kdtree.h and libm that the sources call but do not
define. -/
structure KDHeader (R : Type) where
  kd_realminmax : KDTree R → R → R → Nat → R × R
  kd_realdiff : KDTree R → R → Nat → R
  sqrt : R → R

/-! ## kd_enum.c -/

/-- The struct `KDEnumPair` handed to `visit_edge`. -/
structure KDEnumPair (R : Type) where
  i : Nat
  j : Nat
  r : R

/-- The struct `KDEnumNodePair` handed to `prune_nodes`. -/
structure KDEnumNodePair (R : Type) where
  nodes0 : KDNode R
  nodes1 : KDNode R
  distmin2 : R
  distmax2 : R

/-- One callback invocation with what the callback answered. -/
inductive EnumCall (R : Type) where
  | visit_edge (pair : KDEnumPair R) (rc : Int) : EnumCall R
  | prune_nodes (pair : KDEnumNodePair R) (rc : Int) (open_ : Int) : EnumCall R

/-- The caller's `userdata` and the log of callback invocations so far. -/
structure EnumState (σ R : Type) where
  userdata : σ
  calls : List (EnumCall R)

/-- The struct `TraverseData` of kd_enum.c (its `userdata` lives in
`EnumState`).  `visit_edge` returns its return code and the new userdata;
`prune_nodes` receives the current value of `open` and returns its return
code, the new value of `open` and the new userdata. -/
structure EnumTraverseData (σ R : Type) where
  maxr : R
  maxr2 : R
  visit_edge : σ → KDEnumPair R → Int × σ
  prune_nodes : Option (σ → KDEnumNodePair R → Int → Int × Int × σ)

section Enum

variable {σ R : Type} [LinearOrderedField R]

/-- The loop over `d` of `kd_enum_check` (lines 141-146): the squared
distance of the two gathered points.  The sum is the exact one of an ordered
field; the C code accumulates it in `double`, with rounding, and with
overflow to infinity for coordinates far enough apart. -/
def kd_enum_check_r2 (h : KDHeader R) (t0 : KDTree R) (p0 p1 : Nat → R) : R :=
  (List.range t0.Nd).foldl
    (fun r2 d =>
      let dx := p1 d - p0 d
      let dx := h.kd_realdiff t0 dx d
      r2 + dx * dx) 0

/-- The loop over `j` of `kd_enum_check` (lines 139-156) for row `k0` of the
first buffer; the list holds the rows of the second buffer still to do. -/
def kd_enum_check_inner (h : KDHeader R) (trav : EnumTraverseData σ R)
    (t0 t1 : KDTree R) (n0 n1 : KDNode R) (k0 : Nat) :
    List Nat → EnumState σ R → Int × EnumState σ R
  | [], s => (0, s)
  | k1 :: ks, s =>
    let r2 := kd_enum_check_r2 h t0 (kd_collect n0 t0.input k0) (kd_collect n1 t1.input k1)
    if r2 ≤ trav.maxr2 then
      let pair : KDEnumPair R :=
        { i := t0.ind (n0.start + k0), j := t1.ind (n1.start + k1), r := h.sqrt r2 }
      let out := trav.visit_edge s.userdata pair
      let s1 : EnumState σ R :=
        { userdata := out.2, calls := s.calls ++ [EnumCall.visit_edge pair out.1] }
      if out.1 ≠ 0 then (-1, s1)
      else kd_enum_check_inner h trav t0 t1 n0 n1 k0 ks s1
    else kd_enum_check_inner h trav t0 t1 n0 n1 k0 ks s

/-- The loop over `i` of `kd_enum_check` (lines 136-158); a non-zero result of
the inner loop is the `goto exit`. -/
def kd_enum_check_outer (h : KDHeader R) (trav : EnumTraverseData σ R)
    (t0 t1 : KDTree R) (n0 n1 : KDNode R) :
    List Nat → EnumState σ R → Int × EnumState σ R
  | [], s => (0, s)
  | k0 :: ks, s =>
    let out := kd_enum_check_inner h trav t0 t1 n0 n1 k0 (List.range n1.size) s
    if out.1 ≠ 0 then out
    else kd_enum_check_outer h trav t0 t1 n0 n1 ks out.2

/-- The function `kd_enum_check`. -/
def kd_enum_check (h : KDHeader R) (trav : EnumTraverseData σ R)
    (t0 t1 : KDTree R) (n0 n1 : KDNode R) (s : EnumState σ R) : Int × EnumState σ R :=
  kd_enum_check_outer h trav t0 t1 n0 n1 (List.range n0.size) s

/-- The loop over `d` of `kd_enum_internal` (lines 49-57): the pair
`(distmin, distmax)`. -/
def kd_enum_bounds (h : KDHeader R) (t0 : KDTree R) (n0 n1 : KDNode R) : R × R :=
  (List.range t0.Nd).foldl
    (fun acc d =>
      let lo := n0.kd_node_min d - n1.kd_node_max d
      let hi := n0.kd_node_max d - n1.kd_node_min d
      let real := h.kd_realminmax t0 lo hi d
      (acc.1 + real.1 * real.1, acc.2 + real.2 * real.2)) (0, 0)

/-- Lines 93-111 of `kd_enum_internal`: consult `prune_nodes` if there is
one, then run the exact check. -/
def kd_enum_leafstage (h : KDHeader R) (trav : EnumTraverseData σ R)
    (t0 t1 : KDTree R) (n0 n1 : KDNode R) (distmin distmax : R)
    (s : EnumState σ R) : Int × EnumState σ R :=
  match trav.prune_nodes with
  | some prune =>
    let pair : KDEnumNodePair R :=
      { nodes0 := n0, nodes1 := n1, distmin2 := distmin, distmax2 := distmax }
    let out := prune s.userdata pair 1
    let s1 : EnumState σ R :=
      { userdata := out.2.2, calls := s.calls ++ [EnumCall.prune_nodes pair out.1 out.2.1] }
    if out.1 ≠ 0 then (-1, s1)
    else if out.2.1 ≠ 0 then kd_enum_check h trav t0 t1 n0 n1 s1
    else (0, s1)
  | none => kd_enum_check h trav t0 t1 n0 n1 s

/-- The function `kd_enum_internal`.  `open_` is the C variable `open`; the
two slots of `nodes` are `n0`, `n1`, and replacing `nodes[open]` by a child
is passing the child in that slot. -/
def kd_enum_internal (h : KDHeader R) (trav : EnumTraverseData σ R)
    (t0 t1 : KDTree R) (n0 n1 : KDNode R) (s : EnumState σ R) : Int × EnumState σ R :=
  let dist := kd_enum_bounds h t0 n0 n1
  if dist.1 > trav.maxr2 * (100001 / 100000) then (0, s)
  else if dist.2 ≥ trav.maxr2 then
    let open_ : Nat := if n0.size < n1.size then 1 else 0
    let open_ : Nat :=
      if (if open_ = 0 then n0 else n1).dim < 0 then (if open_ = 0 then 1 else 0) else open_
    if open_ = 0 then
      match n0 with
      | KDNode.split _ _ _ _ _ link0 link1 =>
        let rt := kd_enum_internal h trav t0 t1 link0 n1 s
        if rt.1 ≠ 0 then rt
        else kd_enum_internal h trav t0 t1 link1 n1 rt.2
      | KDNode.leaf _ _ _ _ => kd_enum_leafstage h trav t0 t1 n0 n1 dist.1 dist.2 s
    else
      match n1 with
      | KDNode.split _ _ _ _ _ link0 link1 =>
        let rt := kd_enum_internal h trav t0 t1 n0 link0 s
        if rt.1 ≠ 0 then rt
        else kd_enum_internal h trav t0 t1 n0 link1 rt.2
      | KDNode.leaf _ _ _ _ => kd_enum_leafstage h trav t0 t1 n0 n1 dist.1 dist.2 s
  else kd_enum_leafstage h trav t0 t1 n0 n1 dist.1 dist.2 s
termination_by sizeOf n0 + sizeOf n1
decreasing_by
  all_goals simp_wf
  all_goals omega

/-- The traverse data `kd_enum` builds from its arguments (lines 22-28).  The
product `maxr * maxr` is the exact one of an ordered field; the `double`
product of line 24 overflows to infinity for a large `maxr` and underflows for
a tiny one, see `Maxr2Normal`. -/
def kd_enum_trav (maxr : R) (visit_edge : σ → KDEnumPair R → Int × σ)
    (prune_nodes : Option (σ → KDEnumNodePair R → Int → Int × Int × σ)) :
    EnumTraverseData σ R :=
  { maxr := maxr, maxr2 := maxr * maxr, visit_edge := visit_edge, prune_nodes := prune_nodes }

/-- The function `kd_enum`; the run starts with an empty call log. -/
def kd_enum (h : KDHeader R) (t0 t1 : KDTree R) (n0 n1 : KDNode R) (maxr : R)
    (visit_edge : σ → KDEnumPair R → Int × σ)
    (prune_nodes : Option (σ → KDEnumNodePair R → Int → Int × Int × σ))
    (userdata : σ) : Int × EnumState σ R :=
  kd_enum_internal h (kd_enum_trav maxr visit_edge prune_nodes) t0 t1 n0 n1
    { userdata := userdata, calls := [] }

end Enum

/-! ## kd_force.c -/

/-- The struct `KDAttr` of kdtree.h as far as `kd_force` reads it: the
per-point rows `input` of the attribute, in the tree's internal order, and
the precomputed aggregate `node` of every node. -/
structure KDAttr (R : Type) where
  input : Nat → Nat → R
  node : KDNode R → Nat → R

/-- Modelled from the spec: `kd_attr_get_node` of kdtree.h is missing from the
sources.  It is the attribute aggregate accessor: it returns the buffer of
the precomputed aggregate of the attribute over the node's subtree. -/
def kd_attr_get_node {R : Type} (attr : KDAttr R) (node : KDNode R) : Nat → R :=
  attr.node node

/-- The read-only fields of the struct `TraverseData` of kd_force.c.  The
interaction function `func(r, dx, f, ndims, userdata)` fills the array `f`;
it is the function from `r`, `dx` and `ndims` to that array. -/
structure ForceTraverseData (R : Type) where
  xmass : KDAttr R
  mass : KDAttr R
  pos : Nat → R
  r_cut2 : R
  eta2 : R
  node_ndims : Nat
  func : R → (Nat → R) → Nat → Nat → R

/-- The fields of `TraverseData` that `kd_force_check` writes: the `force`
buffer and the three counters, with the log of the invocations of `func`
(its arguments `r` and `dx`). -/
structure ForceState (R : Type) where
  force : Nat → R
  node_probed : Int
  node_computed : Int
  pair_computed : Int
  calls : List (R × (Nat → R))

section Force

variable {R : Type} [LinearOrderedField R]

/-- Lines 29-33 of `distance`: the wrap of one coordinate difference `dx` on
axis `d` when the tree has a `boxsize`. -/
def distance_wrap (tree : KDTree R) (d : Nat) (dx : R) : R :=
  match tree.boxsize with
  | some boxsize =>
    let half := (1 / 2) * boxsize d
    if dx > half then dx - boxsize d
    else if dx < -half then dx + boxsize d
    else dx
  | none => dx

/-- The function `distance`: the returned `r2` and the array `dx` it fills.
The array has `Nd` entries; it is a function that is 0 outside of them. -/
def distance (tree : KDTree R) (x y : Nat → R) : R × (Nat → R) :=
  (List.range tree.Nd).foldl
    (fun acc d =>
      let dxd := distance_wrap tree d (y d - x d)
      (acc.1 + dxd * dxd, Function.update acc.2 d dxd)) (0, fun _ => 0)

/-- The loop of lines 54-64 of `kd_force_check` over the axes still to do,
from the running `(r2min, r2max)`; `none` is the `return` of line 63. -/
def kd_force_bounds (h : KDHeader R) (trav : ForceTraverseData R) (tree : KDTree R)
    (node : KDNode R) : List Nat → R × R → Option (R × R)
  | [], acc => some acc
  | d :: ds, acc =>
    let realmin := trav.pos d - node.kd_node_max d
    let realmax := trav.pos d - node.kd_node_min d
    let real := h.kd_realminmax tree realmin realmax d
    let r2min := acc.1 + real.1 * real.1
    let r2max := acc.2 + real.2 * real.2
    if r2min > trav.r_cut2 then none
    else kd_force_bounds h trav tree node ds (r2min, r2max)

/-- The update `force[d] += m * f[d]` for `d < node_ndims` (lines 91-93 and
120-122). -/
def force_add (ndims : Nat) (force : Nat → R) (m : R) (f : Nat → R) : Nat → R :=
  fun d => if d < ndims then force d + m * f d else force d

/-- One round of the loop of lines 115-126 for row `i` of the gathered
buffers `pbase`, `mbase`. -/
def kd_force_leaf_step (h : KDHeader R) (trav : ForceTraverseData R) (tree : KDTree R)
    (pbase mbase : Nat → Nat → R) (st : ForceState R) (i : Nat) : ForceState R :=
  let out := distance tree trav.pos (pbase i)
  if out.1 ≤ trav.r_cut2 then
    let r := h.sqrt out.1
    let f := trav.func r out.2 trav.node_ndims
    { st with force := force_add trav.node_ndims st.force (mbase i 0) f,
              calls := st.calls ++ [(r, out.2)] }
  else st

/-- Lines 103-126 of `kd_force_check`: the direct summation over the points
of the node. -/
def kd_force_leaf (h : KDHeader R) (trav : ForceTraverseData R) (tree : KDTree R)
    (node : KDNode R) (st : ForceState R) : ForceState R :=
  let st1 : ForceState R := { st with pair_computed := st.pair_computed + node.size }
  let pbase := kd_collect node tree.input
  let mbase := kd_collect node trav.mass.input
  (List.range node.size).foldl (kd_force_leaf_step h trav tree pbase mbase) st1

/-- Lines 75-94 of `kd_force_check`: the node as one pseudo-particle at
`xmass / mass`.  The quotient `mx[d] / m[0]` is that of an ordered field,
which is 0 when `m[0] = 0`; the C division of line 82 is unchecked and gives
an infinity or NaN there, so what is stated of the call this branch makes
assumes `m[0] ≠ 0`. -/
def kd_force_pseudo (h : KDHeader R) (trav : ForceTraverseData R) (tree : KDTree R)
    (node : KDNode R) (st : ForceState R) : ForceState R :=
  let mx := kd_attr_get_node trav.xmass node
  let m := kd_attr_get_node trav.mass node
  let cm : Nat → R := fun d => if d < trav.node_ndims then mx d / m 0 else 0
  let out := distance tree trav.pos cm
  let r := h.sqrt out.1
  let f := trav.func r out.2 trav.node_ndims
  { st with node_computed := st.node_computed + 1,
            force := force_add trav.node_ndims st.force (m 0) f,
            calls := st.calls ++ [(r, out.2)] }

/-- The function `kd_force_check`.  On a leaf `dim < 0`, so the test of
line 47 fails. -/
def kd_force_check (h : KDHeader R) (trav : ForceTraverseData R) (tree : KDTree R) :
    KDNode R → ForceState R → ForceState R
  | KDNode.leaf start size lo hi, st =>
    kd_force_leaf h trav tree (KDNode.leaf start size lo hi) st
  | KDNode.split dim start size lo hi link0 link1, st =>
    let node := KDNode.split dim start size lo hi link0 link1
    if node.dim ≥ 0 ∧ node.size > 1 then
      let st1 : ForceState R := { st with node_probed := st.node_probed + 1 }
      match kd_force_bounds h trav tree node (List.range trav.node_ndims) (0, 0) with
      | none => st1
      | some (r2min, r2max) =>
        let l := (List.range trav.node_ndims).foldl (fun l d => l + (hi d - lo d)) 0
        if r2max ≤ trav.r_cut2 ∧ l * l < trav.eta2 * r2min then
          kd_force_pseudo h trav tree node st1
        else
          kd_force_check h trav tree link1 (kd_force_check h trav tree link0 st1)
    else kd_force_leaf h trav tree node st

/-- The traverse data `kd_force` builds from its arguments (lines 134-149);
`node_ndims` is `node->tree->input.dims[1]`. -/
def kd_force_trav (tree : KDTree R) (pos : Nat → R) (mass xmass : KDAttr R) (r_cut eta : R)
    (func : R → (Nat → R) → Nat → Nat → R) : ForceTraverseData R :=
  { pos := pos, mass := mass, xmass := xmass, r_cut2 := r_cut * r_cut,
    node_ndims := tree.Nd, eta2 := eta * eta, func := func }

/-- The function `kd_force`: the state after the traversal, whose `force`
is the output buffer (the `printf` of the counters is not modelled).  The
buffer is zeroed over its first `node_ndims` entries before the traversal
(lines 151-154). -/
def kd_force (h : KDHeader R) (tree : KDTree R) (pos : Nat → R) (node : KDNode R)
    (mass xmass : KDAttr R) (r_cut eta : R) (force : Nat → R)
    (func : R → (Nat → R) → Nat → Nat → R) : ForceState R :=
  let force0 : Nat → R := fun d => if d < tree.Nd then 0 else force d
  kd_force_check h (kd_force_trav tree pos mass xmass r_cut eta func) tree node
    { force := force0, node_probed := 0, node_computed := 0, pair_computed := 0, calls := [] }

end Force

/-! ## Vocabulary of the statements -/

section EnumVocabulary

variable {σ R : Type} [LinearOrderedField R]

/-! ### Reading the recursion of kd_enum_internal -/

/-- What one call of `kd_enum_internal` does with its node pair: return at
once (`far`), replace slot 0 or slot 1 by its two children in turn
(`open0`, `open1`), or go on to lines 93-111 (`leafstage`). -/
inductive EnumStep (R : Type) where
  | far : EnumStep R
  | open0 (link0 link1 : KDNode R) : EnumStep R
  | open1 (link0 link1 : KDNode R) : EnumStep R
  | leafstage : EnumStep R

/-- The branch `kd_enum_internal` takes on a node pair (lines 63-92); it
depends on the boxes, the sizes and `maxr2` only. -/
def kd_enum_step (h : KDHeader R) (maxr2 : R) (t0 : KDTree R) (n0 n1 : KDNode R) :
    EnumStep R :=
  let dist := kd_enum_bounds h t0 n0 n1
  if dist.1 > maxr2 * (100001 / 100000) then EnumStep.far
  else if dist.2 ≥ maxr2 then
    let open_ : Nat := if n0.size < n1.size then 1 else 0
    let open_ : Nat :=
      if (if open_ = 0 then n0 else n1).dim < 0 then (if open_ = 0 then 1 else 0) else open_
    if open_ = 0 then
      match n0 with
      | KDNode.split _ _ _ _ _ link0 link1 => EnumStep.open0 link0 link1
      | KDNode.leaf _ _ _ _ => EnumStep.leafstage
    else
      match n1 with
      | KDNode.split _ _ _ _ _ link0 link1 => EnumStep.open1 link0 link1
      | KDNode.leaf _ _ _ _ => EnumStep.leafstage
  else EnumStep.leafstage

/-- Running two recursive calls in turn (lines 77-85): a non-zero return of
the first is returned at once. -/
def enum_seq (f g : EnumState σ R → Int × EnumState σ R) (s : EnumState σ R) :
    Int × EnumState σ R :=
  if (f s).1 ≠ 0 then f s else g (f s).2

/-! ### Statements about kd_enum -/

/-- The pairs handed to `visit_edge` in a call log, in call order. -/
def visited : List (EnumCall R) → List (KDEnumPair R)
  | [] => []
  | EnumCall.visit_edge pair _ :: cs => pair :: visited cs
  | EnumCall.prune_nodes _ _ _ :: cs => visited cs

/-- The return code a logged callback invocation answered. -/
def EnumCall.rc : EnumCall R → Int
  | EnumCall.visit_edge _ rc => rc
  | EnumCall.prune_nodes _ rc _ => rc

/-- Hand the pairs of a list to `visit_edge` one after the other, stopping
with `-1` at the first non-zero answer (lines 150-153). -/
def visit_all (trav : EnumTraverseData σ R) :
    List (KDEnumPair R) → EnumState σ R → Int × EnumState σ R
  | [], s => (0, s)
  | pair :: ps, s =>
    let out := trav.visit_edge s.userdata pair
    let s1 : EnumState σ R :=
      { userdata := out.2, calls := s.calls ++ [EnumCall.visit_edge pair out.1] }
    if out.1 ≠ 0 then (-1, s1) else visit_all trav ps s1

/-- The squared distance between point `a` of the first tree and point `b`
of the second (internal positions), as a sum over the axes of the squared
`kd_realdiff` of the coordinate difference. -/
def dist2 (h : KDHeader R) (t0 t1 : KDTree R) (a b : Nat) : R :=
  ∑ d in Finset.range t0.Nd, (h.kd_realdiff t0 (t1.input b d - t0.input a d) d) ^ 2

/-- The pair reported for the points at internal positions `a` and `b`. -/
def pair_at (h : KDHeader R) (t0 t1 : KDTree R) (a b : Nat) : KDEnumPair R :=
  { i := t0.ind a, j := t1.ind b, r := h.sqrt (dist2 h t0 t1 a b) }

/-- Exhaustive comparison: the pairs of a point `a` of `n0` and a point `b`
of `n1` (internal positions of the index ranges) within the radius, row by
row. -/
def brute_pairs (h : KDHeader R) (maxr2 : R) (t0 t1 : KDTree R) (n0 n1 : KDNode R) :
    List (KDEnumPair R) :=
  (List.range' n0.start n0.size).flatMap fun a =>
    (List.range' n1.start n1.size).filterMap fun b =>
      if dist2 h t0 t1 a b ≤ maxr2 then some (pair_at h t0 t1 a b) else none

/-- Every point of the node's index range lies inside the node's bounding
box on every axis. -/
def BoxContains (t : KDTree R) (n : KDNode R) : Prop :=
  ∀ i d, n.start ≤ i → i < n.start + n.size → d < t.Nd →
    n.kd_node_min d ≤ t.input i d ∧ t.input i d ≤ n.kd_node_max d

/-- A well-formed subtree: every node's box contains the points of its index
range, and the index ranges of the two children of a split node partition
the range of the node. -/
def WellFormed (t : KDTree R) : KDNode R → Prop
  | KDNode.leaf st sz lo hi => BoxContains t (KDNode.leaf st sz lo hi)
  | KDNode.split d st sz lo hi l0 l1 =>
    BoxContains t (KDNode.split d st sz lo hi l0 l1) ∧
    l0.size + l1.size = sz ∧
    ((l0.start = st ∧ l1.start = st + l0.size) ∨ (l1.start = st ∧ l0.start = st + l1.size)) ∧
    WellFormed t l0 ∧ WellFormed t l1

/-- The `realmin` of `kd_realminmax` is a lower bound of `|kd_realdiff|` over
the interval; `realmin` is taken in absolute value, as the code only uses its
square.  The interval `[lo, hi]` handed to `kd_realminmax` bounds
`p0[d] - p1[d]` (lines 52-53) and `kd_realdiff` is applied to `p1[d] - p0[d]`
(line 143), so the bound is on `|kd_realdiff (-delta)|` for `delta` in the
interval; for a `kd_realdiff` whose absolute value is even, as a
minimum-image wrap is, that is the bound on `|kd_realdiff delta|`. -/
def RealMinSound (h : KDHeader R) (t : KDTree R) : Prop :=
  ∀ d lo hi delta, d < t.Nd → lo ≤ delta → delta ≤ hi →
    |(h.kd_realminmax t lo hi d).1| ≤ |h.kd_realdiff t (-delta) d|

/-- The traverse data `kd_enum` builds when no `prune_nodes` is passed. -/
def plain_trav (maxr : R) (visit_edge : σ → KDEnumPair R → Int × σ) : EnumTraverseData σ R :=
  kd_enum_trav maxr visit_edge none

/-- The position pairs `(a, b)` behind `brute_pairs`: a point of `n0` and a
point of `n1` within the radius. -/
def brute_positions (h : KDHeader R) (maxr2 : R) (t0 t1 : KDTree R) (n0 n1 : KDNode R) :
    List (Nat × Nat) :=
  (List.range' n0.start n0.size).flatMap fun a =>
    (List.range' n1.start n1.size).filterMap fun b =>
      if dist2 h t0 t1 a b ≤ maxr2 then some (a, b) else none

end EnumVocabulary

section AbortVocabulary

variable {σ R : Type}

/-- The return codes `visit_edge` answers when it is handed the pairs of a
list one after the other, starting from userdata `u` (no call is skipped). -/
def replay_rcs (visit_edge : σ → KDEnumPair R → Int × σ) : σ → List (KDEnumPair R) → List Int
  | _, [] => []
  | u, pair :: ps => (visit_edge u pair).1 :: replay_rcs visit_edge (visit_edge u pair).2 ps

/-- The visitor that does to the userdata what `visit_edge` does and always
answers 0: the non-aborting run of `visit_edge`. -/
def quiet (visit_edge : σ → KDEnumPair R → Int × σ) : σ → KDEnumPair R → Int × σ :=
  fun u pair => (0, (visit_edge u pair).2)

end AbortVocabulary

section TraceVocabulary

variable {R : Type}

/-- The shape of the callback invocations of one run with return value `rt`:
either `rt = 0` and every callback answered 0, or `rt = -1` and the last
invocation, and only it, answered a non-zero value. -/
def TraceShape (rt : Int) (evs : List (EnumCall R)) : Prop :=
  (rt = 0 ∧ ∀ e ∈ evs, e.rc = 0) ∨
    (rt = -1 ∧ ∃ pre e, evs = pre ++ [e] ∧ (∀ e' ∈ pre, e'.rc = 0) ∧ e.rc ≠ 0)

end TraceVocabulary

section ForceVocabulary

variable {R : Type} [LinearOrderedField R]

/-- The `realmin` of `kd_realminmax` is a lower bound of the wrapped
displacement of `distance` over the interval; `realmin` is taken in absolute
value, as the code only uses its square.  The interval `[lo, hi]` handed to
`kd_realminmax` bounds `pos[d] - p[d]` (lines 57-58) and `distance` wraps
`p[d] - pos[d]`, so the bound is on `|distance_wrap (-delta)|` for `delta` in
the interval. -/
def ForceRealMinSound (h : KDHeader R) (tree : KDTree R) : Prop :=
  ∀ d lo hi delta, d < tree.Nd → lo ≤ delta → delta ≤ hi →
    |(h.kd_realminmax tree lo hi d).1| ≤ |distance_wrap tree d (-delta)|

/-- The contribution of the point at internal position `i` to component `d`
of the direct summation: `m_i * f(sqrt(dist2), dx_i)[d]` if the point is
within the cutoff, and nothing otherwise. -/
def direct_term (h : KDHeader R) (tree : KDTree R) (pos : Nat → R) (mass : KDAttr R)
    (r_cut : R) (func : R → (Nat → R) → Nat → Nat → R) (i d : Nat) : R :=
  if (distance tree pos (tree.input i)).1 ≤ r_cut ^ 2 then
    mass.input i 0 *
      func (h.sqrt (distance tree pos (tree.input i)).1) (distance tree pos (tree.input i)).2
        tree.Nd d
  else 0

/-- The direct summation over the points of a node. -/
def direct_sum (h : KDHeader R) (tree : KDTree R) (pos : Nat → R) (mass : KDAttr R)
    (r_cut : R) (func : R → (Nat → R) → Nat → Nat → R) (node : KDNode R) (d : Nat) : R :=
  ∑ i in Finset.Ico node.start (node.start + node.size),
    direct_term h tree pos mass r_cut func i d

end ForceVocabulary

/-! ## Concrete scenarios -/

/-! ### A concrete scenario: three points in the plane -/

/-- A rational stand-in for libm's `sqrt`, exact on squares of rationals. -/
def sqrtQ (x : ℚ) : ℚ := (Nat.sqrt x.num.toNat : ℚ) / (Nat.sqrt x.den : ℚ)

/-- Modelled from the spec: the bounding-distance kernel and the coordinate
difference of a tree without periodic axes, which kdtree.h (missing from the
sources) provides.  The minimum is `0` if the interval straddles zero and
otherwise the endpoint nearer zero, the maximum is the endpoint farther from
zero, both as absolute values; the difference of two coordinates is left as
it is. -/
def plainHeader : KDHeader ℚ :=
  { kd_realminmax := fun _ lo hi _ =>
      (if lo ≤ 0 ∧ 0 ≤ hi then 0 else min |lo| |hi|, max |lo| |hi|)
    kd_realdiff := fun _ dx _ => dx
    sqrt := sqrtQ }

/-- A vector of the plane. -/
def vec2 (x y : ℚ) : Nat → ℚ := fun d => if d = 0 then x else y

/-- The points `(0,0)`, `(0,4)`, `(3,0)` in the internal order of the tree. -/
def pts3 : Nat → Nat → ℚ := fun i =>
  if i = 0 then vec2 0 0 else if i = 1 then vec2 0 4 else vec2 3 0

/-- The tree over the points `(0,0)`, `(3,0)`, `(0,4)` (external identities
0, 1, 2); internally the second and third point are swapped. -/
def tree3 : KDTree ℚ :=
  { Nd := 2, input := pts3, ind := fun i => if i = 1 then 2 else if i = 2 then 1 else i,
    boxsize := none }

/-- The root of `tree3`: split on axis 0 into the leaf with `(0,0)`, `(0,4)`
and the leaf with `(3,0)`. -/
def root3 : KDNode ℚ :=
  KDNode.split 0 0 3 (vec2 0 0) (vec2 3 4)
    (KDNode.leaf 0 2 (vec2 0 0) (vec2 0 4))
    (KDNode.leaf 2 1 (vec2 3 0) (vec2 3 0))

/-- A visitor that collects the pairs it is handed and never aborts. -/
def collect_edge : List (KDEnumPair ℚ) → KDEnumPair ℚ → Int × List (KDEnumPair ℚ) :=
  fun u pair => (0, u ++ [pair])

/-- A visitor that counts its calls in the userdata and answers `v` on call
number `K` (counted from 1) and 0 on every other call. -/
def abort_at (K : Nat) (v : Int) : Nat → KDEnumPair ℚ → Int × Nat :=
  fun n _ => (if n + 1 = K then v else 0, n + 1)

/-! ### A concrete scenario: one point on the line -/

/-- The tree over the single point `0` of the line. -/
def tree1 : KDTree ℚ := { Nd := 1, input := fun _ _ => 0, ind := fun i => i, boxsize := none }

/-- The root of `tree1`: a leaf holding the one point. -/
def leaf1 : KDNode ℚ := KDNode.leaf 0 1 (fun _ => 0) (fun _ => 0)

/-- A visitor that answers 5 on every call and leaves the userdata alone. -/
def answer5 : Unit → KDEnumPair ℚ → Int × Unit := fun u _ => (5, u)

/-- A `prune_nodes` that answers 7 on every call and leaves `open` and the
userdata alone. -/
def answer7 : Unit → KDEnumNodePair ℚ → Int → Int × Int × Unit := fun u _ o => (7, o, u)

/-- A `prune_nodes` that answers 0 with `open = 0` on every call: never open. -/
def never_open : Unit → KDEnumNodePair ℚ → Int → Int × Int × Unit := fun u _ _ => (0, 0, u)

/-- A `prune_nodes` that answers 0 and leaves `open` and the userdata alone. -/
def always_open : Unit → KDEnumNodePair ℚ → Int → Int × Int × Unit := fun u _ o => (0, o, u)

/-- A visitor that answers 0 on every call and leaves the userdata alone. -/
def answer0 : Unit → KDEnumPair ℚ → Int × Unit := fun u _ => (0, u)

/-! ### A concrete scenario: a periodic line of period 1 -/

/-- A tree on the periodic line of period 1. -/
def ring1 : KDTree ℚ :=
  { Nd := 1, input := fun _ _ => 0, ind := fun i => i, boxsize := some fun _ => 1 }

/-! ### A concrete scenario: two points on the line seen from afar -/

/-- The tree over the points `10` and `11` of the line. -/
def tree2 : KDTree ℚ :=
  { Nd := 1, input := fun i _ => if i = 0 then 10 else 11, ind := fun i => i, boxsize := none }

/-- The root of `tree2`: a split node over two one-point leaves. -/
def root2 : KDNode ℚ :=
  KDNode.split 0 0 2 (fun _ => 10) (fun _ => 11)
    (KDNode.leaf 0 1 (fun _ => 10) (fun _ => 10))
    (KDNode.leaf 1 1 (fun _ => 11) (fun _ => 11))

/-- Unit weights on `tree2`: every point and every leaf weighs 1, the root 2. -/
def mass2 : KDAttr ℚ :=
  { input := fun _ _ => 1, node := fun n _ => n.size }

/-- The weight moments of `mass2` on `tree2`: `10`, `11` and, on the root, `21`. -/
def xmass2 : KDAttr ℚ :=
  { input := fun i _ => if i = 0 then 10 else 11,
    node := fun n _ => if n.size = 2 then 21 else if n.start = 0 then 10 else 11 }

/-- An interaction function: the displacement scaled by the distance. -/
def linear_force : ℚ → (Nat → ℚ) → Nat → Nat → ℚ := fun r dx _ d => r * dx d

/-- The return codes of the `visit_edge` invocations of a call log, in call
order. -/
def visit_rcs {R : Type} : List (EnumCall R) → List Int
  | [] => []
  | EnumCall.visit_edge _ rc :: cs => rc :: visit_rcs cs
  | EnumCall.prune_nodes _ _ _ :: cs => visit_rcs cs

/-- The result `r` of a run and the result `rq` of the run of the quiet
visitor from the same state agree: if `r` returns 0 the two results are the
same, and otherwise the visits of `r` are the first visits of `rq`. -/
def QuietSim {σ R : Type} (r rq : Int × EnumState σ R) : Prop :=
  (r.1 = 0 → rq = r) ∧ (r.1 ≠ 0 → visited r.2.calls <+: visited rq.2.calls)

/-! ### A concrete scenario: the three points against two of them -/

/-- A split node over the positions 0 and 1 of `tree3`, the points `(0,0)`
and `(0,4)`: two one-point leaves. -/
def pair3 : KDNode ℚ :=
  KDNode.split 1 0 2 (vec2 0 0) (vec2 0 4)
    (KDNode.leaf 0 1 (vec2 0 0) (vec2 0 0))
    (KDNode.leaf 1 1 (vec2 0 4) (vec2 0 4))

section EventVocabulary

variable {R : Type} [LinearOrderedField R]

/-- What holds of a logged `prune_nodes` invocation: the two bounds it is
handed are those of `kd_enum_bounds` on the node pair it is handed, the pair
is not too far, and it is fully inside or both nodes are leaves.  Nothing is
said of a `visit_edge` invocation. -/
def PruneCallOk (h : KDHeader R) (maxr2 : R) (t0 : KDTree R) : EnumCall R → Prop
  | EnumCall.visit_edge _ _ => True
  | EnumCall.prune_nodes pair _ _ =>
    pair.distmin2 = (kd_enum_bounds h t0 pair.nodes0 pair.nodes1).1 ∧
    pair.distmax2 = (kd_enum_bounds h t0 pair.nodes0 pair.nodes1).2 ∧
    pair.distmin2 ≤ maxr2 * (100001 / 100000) ∧
    (pair.distmax2 < maxr2 ∨ (pair.nodes0.dim < 0 ∧ pair.nodes1.dim < 0))

/-- A logged invocation is a `visit_edge` call on one of the pairs of a list. -/
def IsVisitOf (L : List (KDEnumPair R)) : EnumCall R → Prop
  | EnumCall.visit_edge pair _ => pair ∈ L
  | EnumCall.prune_nodes _ _ _ => False

end EventVocabulary

section RangeVocabulary

variable {R : Type}

end RangeVocabulary

/-! ### The `nodes` array of kd_enum.c made explicit -/

section EnumArray

variable {σ R : Type} [LinearOrderedField R]

/-- The read `nodes[k]` of the two-slot array `KDNode * nodes[2]`. -/
def nodes_get (nodes : KDNode R × KDNode R) (k : Nat) : KDNode R :=
  if k = 0 then nodes.1 else nodes.2

/-- The assignment `nodes[k] = n` to the two-slot array `KDNode * nodes[2]`. -/
def nodes_set (nodes : KDNode R × KDNode R) (k : Nat) (n : KDNode R) : KDNode R × KDNode R :=
  if k = 0 then (n, nodes.2) else (nodes.1, n)

/-- The height of a subtree: 0 for a leaf, one more than the higher child for a
split node. -/
def KDNode.height : KDNode R → Nat
  | KDNode.leaf _ _ _ _ => 0
  | KDNode.split _ _ _ _ _ link0 link1 => max link0.height link1.height + 1

/-- The function `kd_enum_internal` once more, now with the caller's array
`nodes` as the C code has it: one array shared by all nested calls, in which a
slot is overwritten by a child (`nodes[open] = save->link[0]`, line 76), and
written back (`nodes[open] = save`, lines 80 and 85); the array as the call
leaves it is the third component of the result.  The first argument bounds the
nesting depth of the calls: a call at depth 0 does not run (`none`), and each
nested call gets one less. -/
def kd_enum_internal_fuel (h : KDHeader R) (trav : EnumTraverseData σ R) (t0 t1 : KDTree R) :
    Nat → KDNode R × KDNode R → EnumState σ R →
      Option (Int × EnumState σ R × (KDNode R × KDNode R))
  | 0, _, _ => none
  | fuel + 1, nodes, s =>
    let dist := kd_enum_bounds h t0 (nodes_get nodes 0) (nodes_get nodes 1)
    if dist.1 > trav.maxr2 * (100001 / 100000) then some (0, s, nodes)
    else
      let enumerate : Option (Int × EnumState σ R × (KDNode R × KDNode R)) :=
        let out := kd_enum_leafstage h trav t0 t1 (nodes_get nodes 0) (nodes_get nodes 1)
          dist.1 dist.2 s
        some (out.1, out.2, nodes)
      if dist.2 ≥ trav.maxr2 then
        let open_ : Nat := if (nodes_get nodes 0).size < (nodes_get nodes 1).size then 1 else 0
        let open_ : Nat :=
          if (nodes_get nodes open_).dim < 0 then (if open_ = 0 then 1 else 0) else open_
        let save := nodes_get nodes open_
        match save with
        | KDNode.split _ _ _ _ _ link0 link1 =>
          match kd_enum_internal_fuel h trav t0 t1 fuel (nodes_set nodes open_ link0) s with
          | none => none
          | some (rt, s1, nodes1) =>
            if rt ≠ 0 then some (rt, s1, nodes_set nodes1 open_ save)
            else
              match kd_enum_internal_fuel h trav t0 t1 fuel (nodes_set nodes1 open_ link1)
                  s1 with
              | none => none
              | some (rt, s2, nodes2) => some (rt, s2, nodes_set nodes2 open_ save)
        | KDNode.leaf _ _ _ _ => enumerate
      else enumerate

/-- The function `kd_enum` with the caller's array `nodes` explicit; see
`kd_enum_internal_fuel`. -/
def kd_enum_fuel (h : KDHeader R) (t0 t1 : KDTree R) (fuel : Nat)
    (nodes : KDNode R × KDNode R) (maxr : R) (visit_edge : σ → KDEnumPair R → Int × σ)
    (prune_nodes : Option (σ → KDEnumNodePair R → Int → Int × Int × σ))
    (userdata : σ) : Option (Int × EnumState σ R × (KDNode R × KDNode R)) :=
  kd_enum_internal_fuel h (kd_enum_trav maxr visit_edge prune_nodes) t0 t1 fuel nodes
    { userdata := userdata, calls := [] }

end EnumArray

section ForceBufferVocabulary

variable {R : Type} [LinearOrderedField R]

end ForceBufferVocabulary

section MassVocabulary

variable {R : Type} [LinearOrderedField R]

end MassVocabulary

/-! ### The range of the C type double -/

section DoubleRange

variable {R : Type} [LinearOrderedField R]

/-- The largest finite value of the C type `double` (IEEE 754 binary64), the
`DBL_MAX` of float.h: `(2 - 2^-52) * 2^1023`. -/
def DBL_MAX : R := 2 ^ 1024 - 2 ^ 971

/-- The smallest positive normal value of the C type `double` (IEEE 754
binary64), the `DBL_MIN` of float.h: `2^-1022`. -/
def DBL_MIN : R := 1 / 2 ^ 1022

/-- The squared radius, which `kd_enum` computes as the `double` product
`maxr * maxr` (line 24), lies in the range of the normal values of `double`.
Beyond that range the product overflows to infinity, after which the test
`r2 <= maxr2` of line 147 admits every pair of points; below it the product
underflows, down to zero.  The numbers of this development are those of an
ordered field, where neither happens, so the statements that compare squared
distances with the squared radius are made for radii in this range. -/
def Maxr2Normal (maxr : R) : Prop :=
  DBL_MIN ≤ maxr * maxr ∧ maxr * maxr ≤ DBL_MAX

end DoubleRange

/-! # Theorems -/

section Proofs

variable {σ R : Type} [LinearOrderedField R]

theorem maxr2Normal_five : Maxr2Normal (5 : ℚ) := by
  constructor
  · norm_num [DBL_MIN]
  · norm_num [DBL_MAX]

theorem kd_enum_internal_unfold (h : KDHeader R) (trav : EnumTraverseData σ R)
    (t0 t1 : KDTree R) (n0 n1 : KDNode R) (s : EnumState σ R) :
    kd_enum_internal h trav t0 t1 n0 n1 s =
      match kd_enum_step h trav.maxr2 t0 n0 n1 with
      | EnumStep.far => (0, s)
      | EnumStep.open0 l0 l1 =>
        enum_seq (kd_enum_internal h trav t0 t1 l0 n1) (kd_enum_internal h trav t0 t1 l1 n1) s
      | EnumStep.open1 l0 l1 =>
        enum_seq (kd_enum_internal h trav t0 t1 n0 l0) (kd_enum_internal h trav t0 t1 n0 l1) s
      | EnumStep.leafstage =>
        kd_enum_leafstage h trav t0 t1 n0 n1 (kd_enum_bounds h t0 n0 n1).1
          (kd_enum_bounds h t0 n0 n1).2 s := by
  rw [kd_enum_internal.eq_def]
  unfold kd_enum_step enum_seq
  by_cases h1 : (kd_enum_bounds h t0 n0 n1).1 > trav.maxr2 * (100001 / 100000)
  · simp only [h1, if_true]
  · by_cases h2 : (kd_enum_bounds h t0 n0 n1).2 ≥ trav.maxr2
    · simp only [h1, h2, if_true, if_false]
      cases n0 <;> cases n1 <;> split_ifs <;> rfl
    · simp only [h1, h2, if_false]

theorem kd_enum_step_open0 {h : KDHeader R} {maxr2 : R} {t0 : KDTree R} {n0 n1 l0 l1 : KDNode R}
    (hs : kd_enum_step h maxr2 t0 n0 n1 = EnumStep.open0 l0 l1) :
    ∃ d st sz lo hi, n0 = KDNode.split d st sz lo hi l0 l1 := by
  unfold kd_enum_step at hs
  by_cases h1 : (kd_enum_bounds h t0 n0 n1).1 > maxr2 * (100001 / 100000)
  · simp only [h1, if_true] at hs
    cases hs
  · by_cases h2 : (kd_enum_bounds h t0 n0 n1).2 ≥ maxr2
    · simp only [h1, h2, if_true, if_false] at hs
      cases n0 <;> cases n1 <;> split_ifs at hs <;>
        first
        | contradiction
        | (cases hs; exact ⟨_, _, _, _, _, rfl⟩)
    · simp only [h1, h2, if_false] at hs
      cases hs

theorem kd_enum_step_open1 {h : KDHeader R} {maxr2 : R} {t0 : KDTree R} {n0 n1 l0 l1 : KDNode R}
    (hs : kd_enum_step h maxr2 t0 n0 n1 = EnumStep.open1 l0 l1) :
    ∃ d st sz lo hi, n1 = KDNode.split d st sz lo hi l0 l1 := by
  unfold kd_enum_step at hs
  by_cases h1 : (kd_enum_bounds h t0 n0 n1).1 > maxr2 * (100001 / 100000)
  · simp only [h1, if_true] at hs
    cases hs
  · by_cases h2 : (kd_enum_bounds h t0 n0 n1).2 ≥ maxr2
    · simp only [h1, h2, if_true, if_false] at hs
      cases n0 <;> cases n1 <;> split_ifs at hs <;>
        first
        | contradiction
        | (cases hs; exact ⟨_, _, _, _, _, rfl⟩)
    · simp only [h1, h2, if_false] at hs
      cases hs

/-- Induction along the recursion of `kd_enum_internal`. -/
theorem kd_enum_step_induction (h : KDHeader R) (maxr2 : R) (t0 : KDTree R)
    (P : KDNode R → KDNode R → Prop)
    (hfar : ∀ n0 n1, kd_enum_step h maxr2 t0 n0 n1 = EnumStep.far → P n0 n1)
    (hleaf : ∀ n0 n1, kd_enum_step h maxr2 t0 n0 n1 = EnumStep.leafstage → P n0 n1)
    (hopen0 : ∀ n0 n1 d st sz lo hi l0 l1, n0 = KDNode.split d st sz lo hi l0 l1 →
      kd_enum_step h maxr2 t0 n0 n1 = EnumStep.open0 l0 l1 → P l0 n1 → P l1 n1 → P n0 n1)
    (hopen1 : ∀ n0 n1 d st sz lo hi l0 l1, n1 = KDNode.split d st sz lo hi l0 l1 →
      kd_enum_step h maxr2 t0 n0 n1 = EnumStep.open1 l0 l1 → P n0 l0 → P n0 l1 → P n0 n1) :
    ∀ n0 n1, P n0 n1 := by
  intro n0
  induction n0 with
  | leaf st0 sz0 lo0 hi0 =>
    intro n1
    induction n1 with
    | leaf st1 sz1 lo1 hi1 =>
      cases hs : kd_enum_step h maxr2 t0 (KDNode.leaf st0 sz0 lo0 hi0) (KDNode.leaf st1 sz1 lo1 hi1) with
      | far => exact hfar _ _ hs
      | leafstage => exact hleaf _ _ hs
      | open0 l0 l1 => obtain ⟨_, _, _, _, _, hh⟩ := kd_enum_step_open0 hs; cases hh
      | open1 l0 l1 => obtain ⟨_, _, _, _, _, hh⟩ := kd_enum_step_open1 hs; cases hh
    | split d1 st1 sz1 lo1 hi1 a b iha ihb =>
      cases hs : kd_enum_step h maxr2 t0 (KDNode.leaf st0 sz0 lo0 hi0)
          (KDNode.split d1 st1 sz1 lo1 hi1 a b) with
      | far => exact hfar _ _ hs
      | leafstage => exact hleaf _ _ hs
      | open0 l0 l1 => obtain ⟨_, _, _, _, _, hh⟩ := kd_enum_step_open0 hs; cases hh
      | open1 l0 l1 =>
        obtain ⟨_, _, _, _, _, hh⟩ := kd_enum_step_open1 hs
        cases hh
        exact hopen1 _ _ _ _ _ _ _ _ _ rfl hs iha ihb
  | split d0 st0 sz0 lo0 hi0 a0 b0 iha0 ihb0 =>
    intro n1
    induction n1 with
    | leaf st1 sz1 lo1 hi1 =>
      cases hs : kd_enum_step h maxr2 t0 (KDNode.split d0 st0 sz0 lo0 hi0 a0 b0)
          (KDNode.leaf st1 sz1 lo1 hi1) with
      | far => exact hfar _ _ hs
      | leafstage => exact hleaf _ _ hs
      | open0 l0 l1 =>
        obtain ⟨_, _, _, _, _, hh⟩ := kd_enum_step_open0 hs
        cases hh
        exact hopen0 _ _ _ _ _ _ _ _ _ rfl hs (iha0 _) (ihb0 _)
      | open1 l0 l1 => obtain ⟨_, _, _, _, _, hh⟩ := kd_enum_step_open1 hs; cases hh
    | split d1 st1 sz1 lo1 hi1 a b iha ihb =>
      cases hs : kd_enum_step h maxr2 t0 (KDNode.split d0 st0 sz0 lo0 hi0 a0 b0)
          (KDNode.split d1 st1 sz1 lo1 hi1 a b) with
      | far => exact hfar _ _ hs
      | leafstage => exact hleaf _ _ hs
      | open0 l0 l1 =>
        obtain ⟨_, _, _, _, _, hh⟩ := kd_enum_step_open0 hs
        cases hh
        exact hopen0 _ _ _ _ _ _ _ _ _ rfl hs (iha0 _) (ihb0 _)
      | open1 l0 l1 =>
        obtain ⟨_, _, _, _, _, hh⟩ := kd_enum_step_open1 hs
        cases hh
        exact hopen1 _ _ _ _ _ _ _ _ _ rfl hs iha ihb

theorem foldl_add_eq_sum (f : Nat → R) (n : Nat) (a : R) :
    (List.range n).foldl (fun acc d => acc + f d) a = a + ∑ d in Finset.range n, f d := by
  induction n with
  | zero => simp
  | succ n ih =>
    rw [List.range_succ, List.foldl_append, ih, Finset.sum_range_succ]
    simp [add_assoc]

theorem kd_enum_check_r2_eq (h : KDHeader R) (t0 t1 : KDTree R) (n0 n1 : KDNode R) (k0 k1 : Nat) :
    kd_enum_check_r2 h t0 (kd_collect n0 t0.input k0) (kd_collect n1 t1.input k1) =
      dist2 h t0 t1 (n0.start + k0) (n1.start + k1) := by
  unfold kd_enum_check_r2 dist2 kd_collect
  rw [foldl_add_eq_sum (fun d => h.kd_realdiff t0 (t1.input (n1.start + k1) d - t0.input (n0.start + k0) d) d *
    h.kd_realdiff t0 (t1.input (n1.start + k1) d - t0.input (n0.start + k0) d) d)]
  simp [pow_two]

omit [LinearOrderedField R] in
theorem visit_all_append (trav : EnumTraverseData σ R) (l1 l2 : List (KDEnumPair R))
    (s : EnumState σ R) :
    visit_all trav (l1 ++ l2) s = enum_seq (visit_all trav l1) (visit_all trav l2) s := by
  induction l1 generalizing s with
  | nil => simp [visit_all, enum_seq]
  | cons p ps ih =>
    simp only [List.cons_append, visit_all, enum_seq]
    by_cases hrc : (trav.visit_edge s.userdata p).1 = 0
    · simp only [hrc, ne_eq, not_true_eq_false, if_false]
      exact ih _
    · simp [hrc]

theorem kd_enum_check_inner_eq (h : KDHeader R) (trav : EnumTraverseData σ R)
    (t0 t1 : KDTree R) (n0 n1 : KDNode R) (k0 : Nat) (ks : List Nat) (s : EnumState σ R) :
    kd_enum_check_inner h trav t0 t1 n0 n1 k0 ks s =
      visit_all trav (ks.filterMap fun k1 =>
        if dist2 h t0 t1 (n0.start + k0) (n1.start + k1) ≤ trav.maxr2 then
          some (pair_at h t0 t1 (n0.start + k0) (n1.start + k1))
        else none) s := by
  induction ks generalizing s with
  | nil => simp [kd_enum_check_inner, visit_all]
  | cons k1 ks ih =>
    simp only [kd_enum_check_inner, kd_enum_check_r2_eq, List.filterMap_cons]
    by_cases hq : dist2 h t0 t1 (n0.start + k0) (n1.start + k1) ≤ trav.maxr2
    · simp only [hq, if_true, visit_all, pair_at]
      by_cases hrc : (trav.visit_edge s.userdata
          { i := t0.ind (n0.start + k0), j := t1.ind (n1.start + k1),
            r := h.sqrt (dist2 h t0 t1 (n0.start + k0) (n1.start + k1)) }).1 = 0
      · simp only [hrc, ne_eq, not_true_eq_false, if_false]
        rw [ih]; rfl
      · simp [hrc]
    · simp only [hq, if_false]
      exact ih s

theorem kd_enum_check_outer_eq (h : KDHeader R) (trav : EnumTraverseData σ R)
    (t0 t1 : KDTree R) (n0 n1 : KDNode R) (ks : List Nat) (s : EnumState σ R) :
    kd_enum_check_outer h trav t0 t1 n0 n1 ks s =
      visit_all trav (ks.flatMap fun k0 =>
        (List.range n1.size).filterMap fun k1 =>
          if dist2 h t0 t1 (n0.start + k0) (n1.start + k1) ≤ trav.maxr2 then
            some (pair_at h t0 t1 (n0.start + k0) (n1.start + k1))
          else none) s := by
  induction ks generalizing s with
  | nil => simp [kd_enum_check_outer, visit_all]
  | cons k0 ks ih =>
    simp only [kd_enum_check_outer, List.flatMap_cons, visit_all_append, enum_seq,
      kd_enum_check_inner_eq, ih]

theorem kd_enum_check_eq (h : KDHeader R) (trav : EnumTraverseData σ R)
    (t0 t1 : KDTree R) (n0 n1 : KDNode R) (s : EnumState σ R) :
    kd_enum_check h trav t0 t1 n0 n1 s =
      visit_all trav (brute_pairs h trav.maxr2 t0 t1 n0 n1) s := by
  unfold kd_enum_check brute_pairs
  rw [kd_enum_check_outer_eq]
  simp only [List.range'_eq_map_range, List.flatMap_map, List.filterMap_map]
  rfl

theorem foldl_pair_eq_sum (f g : Nat → R) (n : Nat) (a b : R) :
    (List.range n).foldl (fun acc d => (acc.1 + f d, acc.2 + g d)) (a, b) =
      (a + ∑ d in Finset.range n, f d, b + ∑ d in Finset.range n, g d) := by
  induction n with
  | zero => simp
  | succ n ih =>
    rw [List.range_succ, List.foldl_append, ih, Finset.sum_range_succ, Finset.sum_range_succ]
    simp [add_assoc]

theorem kd_enum_bounds_fst (h : KDHeader R) (t0 : KDTree R) (n0 n1 : KDNode R) :
    (kd_enum_bounds h t0 n0 n1).1 =
      ∑ d in Finset.range t0.Nd,
        (h.kd_realminmax t0 (n0.kd_node_min d - n1.kd_node_max d)
          (n0.kd_node_max d - n1.kd_node_min d) d).1 ^ 2 := by
  unfold kd_enum_bounds
  rw [foldl_pair_eq_sum
    (fun d => (h.kd_realminmax t0 (n0.kd_node_min d - n1.kd_node_max d)
          (n0.kd_node_max d - n1.kd_node_min d) d).1 * (h.kd_realminmax t0 (n0.kd_node_min d - n1.kd_node_max d)
          (n0.kd_node_max d - n1.kd_node_min d) d).1)
    (fun d => (h.kd_realminmax t0 (n0.kd_node_min d - n1.kd_node_max d)
          (n0.kd_node_max d - n1.kd_node_min d) d).2 * (h.kd_realminmax t0 (n0.kd_node_min d - n1.kd_node_max d)
          (n0.kd_node_max d - n1.kd_node_min d) d).2)]
  simp [pow_two]

theorem distmin_le_dist2 (h : KDHeader R) (t0 t1 : KDTree R) (n0 n1 : KDNode R)
    (hsound : RealMinSound h t0) (hNd : t1.Nd = t0.Nd)
    (hb0 : BoxContains t0 n0) (hb1 : BoxContains t1 n1) (a b : Nat)
    (ha : a ∈ List.range' n0.start n0.size) (hb : b ∈ List.range' n1.start n1.size) :
    (kd_enum_bounds h t0 n0 n1).1 ≤ dist2 h t0 t1 a b := by
  rw [kd_enum_bounds_fst]
  unfold dist2
  apply Finset.sum_le_sum
  intro d hd
  rw [Finset.mem_range] at hd
  rw [List.mem_range'_1] at ha hb
  obtain ⟨h0lo, h0hi⟩ := hb0 a d ha.1 ha.2 hd
  obtain ⟨h1lo, h1hi⟩ := hb1 b d hb.1 hb.2 (hNd ▸ hd)
  have hs := hsound d (n0.kd_node_min d - n1.kd_node_max d) (n0.kd_node_max d - n1.kd_node_min d)
    (t0.input a d - t1.input b d) hd (by linarith) (by linarith)
  rw [neg_sub] at hs
  exact sq_le_sq.mpr hs


omit [LinearOrderedField R] in
theorem range_split_perm {R : Type} (d st sz : Nat) (lo hi : Nat → R) (l0 l1 : KDNode R)
    (hsz : l0.size + l1.size = sz)
    (hpart : (l0.start = st ∧ l1.start = st + l0.size) ∨ (l1.start = st ∧ l0.start = st + l1.size)) :
    (List.range' l0.start l0.size ++ List.range' l1.start l1.size).Perm
      (List.range' (KDNode.split d st sz lo hi l0 l1).start
        (KDNode.split d st sz lo hi l0 l1).size) := by
  show (List.range' l0.start l0.size ++ List.range' l1.start l1.size).Perm (List.range' st sz)
  rcases hpart with ⟨h0, h1⟩ | ⟨h1, h0⟩
  · rw [h0, h1, List.range'_append_1, add_comm l1.size, hsz]
  · rw [h0, h1]
    refine List.perm_append_comm.trans ?_
    rw [List.range'_append_1, hsz]

theorem brute_pairs_far (h : KDHeader R) (maxr2 : R) (t0 t1 : KDTree R) (n0 n1 : KDNode R)
    (hmaxr2 : 0 ≤ maxr2) (hsound : RealMinSound h t0) (hNd : t1.Nd = t0.Nd)
    (hb0 : BoxContains t0 n0) (hb1 : BoxContains t1 n1)
    (hfar : (kd_enum_bounds h t0 n0 n1).1 > maxr2 * (100001 / 100000)) :
    brute_pairs h maxr2 t0 t1 n0 n1 = [] := by
  unfold brute_pairs
  rw [List.flatMap_eq_nil_iff]
  intro a ha
  rw [List.filterMap_eq_nil_iff]
  intro b hb
  have hle := distmin_le_dist2 h t0 t1 n0 n1 hsound hNd hb0 hb1 a b ha hb
  have : ¬ dist2 h t0 t1 a b ≤ maxr2 := by
    intro hq
    nlinarith
  simp [this]

theorem brute_pairs_split0 (h : KDHeader R) (maxr2 : R) (t0 t1 : KDTree R)
    (d st sz : Nat) (lo hi : Nat → R) (l0 l1 n1 : KDNode R)
    (hsz : l0.size + l1.size = sz)
    (hpart : (l0.start = st ∧ l1.start = st + l0.size) ∨ (l1.start = st ∧ l0.start = st + l1.size)) :
    (brute_pairs h maxr2 t0 t1 l0 n1 ++ brute_pairs h maxr2 t0 t1 l1 n1).Perm
      (brute_pairs h maxr2 t0 t1 (KDNode.split d st sz lo hi l0 l1) n1) := by
  unfold brute_pairs
  rw [← List.flatMap_append]
  exact List.Perm.flatMap_right _ (range_split_perm d st sz lo hi l0 l1 hsz hpart)

theorem brute_pairs_split1 (h : KDHeader R) (maxr2 : R) (t0 t1 : KDTree R)
    (d st sz : Nat) (lo hi : Nat → R) (l0 l1 n0 : KDNode R)
    (hsz : l0.size + l1.size = sz)
    (hpart : (l0.start = st ∧ l1.start = st + l0.size) ∨ (l1.start = st ∧ l0.start = st + l1.size)) :
    (brute_pairs h maxr2 t0 t1 n0 l0 ++ brute_pairs h maxr2 t0 t1 n0 l1).Perm
      (brute_pairs h maxr2 t0 t1 n0 (KDNode.split d st sz lo hi l0 l1)) := by
  unfold brute_pairs
  refine (List.flatMap_append_perm _ _ _).trans ?_
  apply List.Perm.flatMap_left
  intro a _
  rw [← List.filterMap_append]
  exact List.Perm.filterMap _ (range_split_perm d st sz lo hi l0 l1 hsz hpart)

theorem kd_enum_step_far {h : KDHeader R} {maxr2 : R} {t0 : KDTree R} {n0 n1 : KDNode R}
    (hs : kd_enum_step h maxr2 t0 n0 n1 = EnumStep.far) :
    (kd_enum_bounds h t0 n0 n1).1 > maxr2 * (100001 / 100000) := by
  by_contra h1
  unfold kd_enum_step at hs
  by_cases h2 : (kd_enum_bounds h t0 n0 n1).2 ≥ maxr2
  · simp only [h1, h2, if_true, if_false] at hs
    cases n0 <;> cases n1 <;> split_ifs at hs
  · simp only [h1, h2, if_false] at hs
    cases hs

/-- The visits of `kd_enum_internal` without `prune_nodes` are those of one list of
pairs, which under the well-formedness hypotheses is a permutation of the exhaustive
comparison. -/
theorem kd_enum_internal_trace (h : KDHeader R) (maxr2 : R) (t0 t1 : KDTree R) :
    ∀ n0 n1 : KDNode R, ∃ L : List (KDEnumPair R),
      (∀ (τ : Type) (trav : EnumTraverseData τ R) (s : EnumState τ R),
        trav.prune_nodes = none → trav.maxr2 = maxr2 →
          kd_enum_internal h trav t0 t1 n0 n1 s = visit_all trav L s) ∧
      (0 ≤ maxr2 → RealMinSound h t0 → t1.Nd = t0.Nd → WellFormed t0 n0 → WellFormed t1 n1 →
        L.Perm (brute_pairs h maxr2 t0 t1 n0 n1)) := by
  apply kd_enum_step_induction h maxr2 t0
  · intro n0 n1 hs
    refine ⟨[], ?_, ?_⟩
    · intro τ trav s _ hm
      rw [kd_enum_internal_unfold, hm, hs]
      rfl
    · intro hmaxr2 hsound hNd hw0 hw1
      have hb0 : BoxContains t0 n0 := by cases n0 <;> first | exact hw0 | exact hw0.1
      have hb1 : BoxContains t1 n1 := by cases n1 <;> first | exact hw1 | exact hw1.1
      rw [brute_pairs_far h maxr2 t0 t1 n0 n1 hmaxr2 hsound hNd hb0 hb1 (kd_enum_step_far hs)]
  · intro n0 n1 hs
    refine ⟨brute_pairs h maxr2 t0 t1 n0 n1, ?_, fun _ _ _ _ _ => List.Perm.refl _⟩
    intro τ trav s hp hm
    rw [kd_enum_internal_unfold, hm, hs]
    simp only [kd_enum_leafstage, hp]
    rw [kd_enum_check_eq, hm]
  · intro n0 n1 d st sz lo hi l0 l1 hn0 hs ⟨L0, ht0, hp0⟩ ⟨L1, ht1, hp1⟩
    refine ⟨L0 ++ L1, ?_, ?_⟩
    · intro τ trav s hp hm
      rw [kd_enum_internal_unfold, hm, hs, visit_all_append]
      simp only [enum_seq, ht0 τ trav _ hp hm, ht1 τ trav _ hp hm]
    · intro hmaxr2 hsound hNd hw0 hw1
      subst hn0
      obtain ⟨_, hsz, hpart, hwl0, hwl1⟩ := hw0
      exact (List.Perm.append (hp0 hmaxr2 hsound hNd hwl0 hw1) (hp1 hmaxr2 hsound hNd hwl1 hw1)).trans
        (brute_pairs_split0 h maxr2 t0 t1 d st sz lo hi l0 l1 n1 hsz hpart)
  · intro n0 n1 d st sz lo hi l0 l1 hn1 hs ⟨L0, ht0, hp0⟩ ⟨L1, ht1, hp1⟩
    refine ⟨L0 ++ L1, ?_, ?_⟩
    · intro τ trav s hp hm
      rw [kd_enum_internal_unfold, hm, hs, visit_all_append]
      simp only [enum_seq, ht0 τ trav _ hp hm, ht1 τ trav _ hp hm]
    · intro hmaxr2 hsound hNd hw0 hw1
      subst hn1
      obtain ⟨_, hsz, hpart, hwl0, hwl1⟩ := hw1
      exact (List.Perm.append (hp0 hmaxr2 hsound hNd hw0 hwl0) (hp1 hmaxr2 hsound hNd hw0 hwl1)).trans
        (brute_pairs_split1 h maxr2 t0 t1 d st sz lo hi l0 l1 n0 hsz hpart)

theorem plainHeader_sound (t : KDTree ℚ) : RealMinSound plainHeader t := by
  intro d lo hi delta _ hlo hhi
  simp only [plainHeader, abs_neg]
  split_ifs with hst
  · rw [abs_zero]
    exact abs_nonneg _
  · rw [abs_of_nonneg (le_min (abs_nonneg _) (abs_nonneg _))]
    by_cases hl : lo ≤ 0
    · have hh : hi < 0 := by
        by_contra hc
        exact hst ⟨hl, not_lt.mp hc⟩
      rw [abs_of_neg (lt_of_le_of_lt hhi hh), abs_of_neg hh]
      exact le_trans (min_le_right _ _) (by linarith)
    · have hl' : 0 < lo := not_le.mp hl
      rw [abs_of_pos (lt_of_lt_of_le hl' hlo), abs_of_pos hl']
      exact le_trans (min_le_left _ _) hlo

theorem root3_wellFormed : WellFormed tree3 root3 := by
  simp only [root3, WellFormed, BoxContains, KDNode.start, KDNode.size, KDNode.kd_node_min,
    KDNode.kd_node_max, tree3]
  refine ⟨?_, by norm_num, by norm_num, ?_, ?_⟩ <;>
  · intro i d h1 h2 h3
    interval_cases i <;> interval_cases d <;> norm_num [pts3, vec2]

omit [LinearOrderedField R] in
theorem visited_append (l1 l2 : List (EnumCall R)) :
    visited (l1 ++ l2) = visited l1 ++ visited l2 := by
  induction l1 with
  | nil => rfl
  | cons c cs ih => cases c <;> simp [visited, ih]

omit [LinearOrderedField R] in
theorem visit_all_of_nonabort (trav : EnumTraverseData σ R)
    (hvisit : ∀ u p, (trav.visit_edge u p).1 = 0) (L : List (KDEnumPair R)) (s : EnumState σ R) :
    (visit_all trav L s).1 = 0 ∧
      visited (visit_all trav L s).2.calls = visited s.calls ++ L := by
  induction L generalizing s with
  | nil => simp [visit_all]
  | cons p ps ih =>
    simp only [visit_all, hvisit, ne_eq, not_true_eq_false, if_false]
    refine ⟨(ih _).1, ?_⟩
    rw [(ih _).2]
    simp [visited_append, visited]

theorem mem_brute_positions (h : KDHeader R) (maxr2 : R) (t0 t1 : KDTree R) (n0 n1 : KDNode R)
    (a b : Nat) :
    (a, b) ∈ brute_positions h maxr2 t0 t1 n0 n1 ↔
      (n0.start ≤ a ∧ a < n0.start + n0.size) ∧ (n1.start ≤ b ∧ b < n1.start + n1.size) ∧
        dist2 h t0 t1 a b ≤ maxr2 := by
  unfold brute_positions
  simp only [List.mem_flatMap, List.mem_filterMap, List.mem_range'_1]
  constructor
  · rintro ⟨a', ha', b', hb', hq⟩
    split_ifs at hq with hd
    · simp only [Option.some.injEq, Prod.mk.injEq] at hq
      obtain ⟨rfl, rfl⟩ := hq
      exact ⟨ha', hb', hd⟩
  · rintro ⟨ha, hb, hd⟩
    exact ⟨a, ha, b, hb, by simp [hd]⟩

theorem nodup_brute_positions (h : KDHeader R) (maxr2 : R) (t0 t1 : KDTree R)
    (n0 n1 : KDNode R) : (brute_positions h maxr2 t0 t1 n0 n1).Nodup := by
  unfold brute_positions
  rw [List.nodup_flatMap]
  constructor
  · intro a _
    apply List.Nodup.filterMap _ (List.nodup_range' _ _)
    intro b b' c hc hc'
    split_ifs at hc hc' <;> simp only [Option.mem_def, Option.some.injEq, reduceCtorEq] at hc hc'
    rw [← hc'] at hc
    exact (Prod.mk.inj hc).2
  · apply List.Pairwise.imp_of_mem _ (List.nodup_range' n0.start n0.size)
    intro a a' _ _ hne
    simp only [Function.onFun, List.Disjoint]
    intro c hc hc'
    simp only [List.mem_filterMap] at hc hc'
    obtain ⟨b, _, hb⟩ := hc
    obtain ⟨b', _, hb'⟩ := hc'
    split_ifs at hb hb'
    simp only [Option.some.injEq] at hb hb'
    rw [← hb'] at hb
    exact hne (Prod.mk.inj hb).1

theorem brute_pairs_eq_map (h : KDHeader R) (maxr2 : R) (t0 t1 : KDTree R) (n0 n1 : KDNode R) :
    brute_pairs h maxr2 t0 t1 n0 n1 =
      (brute_positions h maxr2 t0 t1 n0 n1).map fun ab => pair_at h t0 t1 ab.1 ab.2 := by
  unfold brute_pairs brute_positions
  rw [List.map_flatMap]
  congr 1
  funext a
  rw [List.map_filterMap]
  congr 1
  funext b
  split_ifs <;> rfl

/-- Without `prune_nodes` and with a visitor that never aborts, `kd_enum_internal` returns 0
and its visits are a permutation of the exhaustive comparison. -/
theorem kd_enum_internal_perm (h : KDHeader R) (t0 t1 : KDTree R) (n0 n1 : KDNode R)
    (maxr : R) (visit_edge : σ → KDEnumPair R → Int × σ) (s : EnumState σ R)
    (hsound : RealMinSound h t0) (hNd : t1.Nd = t0.Nd)
    (hw0 : WellFormed t0 n0) (hw1 : WellFormed t1 n1)
    (hvisit : ∀ u p, (visit_edge u p).1 = 0) :
    (kd_enum_internal h (plain_trav maxr visit_edge) t0 t1 n0 n1 s).1 = 0 ∧
      (visited (kd_enum_internal h (plain_trav maxr visit_edge) t0 t1 n0 n1 s).2.calls).Perm
        (visited s.calls ++ brute_pairs h (maxr * maxr) t0 t1 n0 n1) := by
  obtain ⟨L, htrace, hperm⟩ := kd_enum_internal_trace h (maxr * maxr) t0 t1 n0 n1
  have hp := hperm (mul_self_nonneg maxr) hsound hNd hw0 hw1
  rw [htrace σ (plain_trav maxr visit_edge) s rfl rfl]
  refine ⟨(visit_all_of_nonabort _ hvisit _ _).1, ?_⟩
  rw [(visit_all_of_nonabort _ hvisit _ _).2]
  exact List.Perm.append_left _ hp

theorem kd_enum_eq (h : KDHeader R) (t0 t1 : KDTree R) (n0 n1 : KDNode R) (maxr : R)
    (visit_edge : σ → KDEnumPair R → Int × σ) (u : σ) :
    kd_enum h t0 t1 n0 n1 maxr visit_edge none u =
      kd_enum_internal h (plain_trav maxr visit_edge) t0 t1 n0 n1 { userdata := u, calls := [] } :=
  rfl

/-- Claim C2 (pruning soundness as an equivalence).  For well-formed trees, a sound
`realmin`, no `prune_nodes` and a visitor that never aborts: (1) the multiset of `(i, j, r)`
triples `kd_enum_internal` hands to `visit_edge` on a node pair equals the multiset
`kd_enum_check` hands to it when applied directly to that pair; (2) for a squared radius in
the range of `double`, none is dropped and none is emitted twice: there is a list without
repetition of position pairs `(a, b)`, holding exactly the pairs of a point `a` of
`nodes[0]` and a point `b` of `nodes[1]` with squared distance at most `maxr * maxr`, such
that the triples handed over by the call are, as a multiset, the triples
`(ind0[a], ind1[b], sqrt(dist2 a b))` of the pairs of that list, one for each. -/
theorem pruning_equals_exhaustive_check (h : KDHeader R) (t0 t1 : KDTree R)
    (n0 n1 : KDNode R)
    (maxr : R) (visit_edge : σ → KDEnumPair R → Int × σ) (s : EnumState σ R)
    (hsound : RealMinSound h t0) (hNd : t1.Nd = t0.Nd)
    (hw0 : WellFormed t0 n0) (hw1 : WellFormed t1 n1)
    (hvisit : ∀ u p, (visit_edge u p).1 = 0) :
    Multiset.ofList
        (visited (kd_enum_internal h (plain_trav maxr visit_edge) t0 t1 n0 n1 s).2.calls) =
      Multiset.ofList
        (visited (kd_enum_check h (plain_trav maxr visit_edge) t0 t1 n0 n1 s).2.calls) ∧
    (Maxr2Normal maxr →
      ∃ L : List (Nat × Nat), L.Nodup ∧
        (∀ a b, (a, b) ∈ L ↔
          (n0.start ≤ a ∧ a < n0.start + n0.size) ∧
            (n1.start ≤ b ∧ b < n1.start + n1.size) ∧ dist2 h t0 t1 a b ≤ maxr * maxr) ∧
        Multiset.ofList
            (visited (kd_enum_internal h (plain_trav maxr visit_edge) t0 t1 n0 n1 s).2.calls) =
          Multiset.ofList (visited s.calls) +
            Multiset.ofList (L.map fun ab => pair_at h t0 t1 ab.1 ab.2)) := by
  constructor
  · obtain ⟨L, htrace, hperm⟩ := kd_enum_internal_trace h (maxr * maxr) t0 t1 n0 n1
    have hp := hperm (mul_self_nonneg maxr) hsound hNd hw0 hw1
    rw [htrace σ (plain_trav maxr visit_edge) s rfl rfl, kd_enum_check_eq,
      (visit_all_of_nonabort _ hvisit _ _).2, (visit_all_of_nonabort _ hvisit _ _).2]
    exact Multiset.coe_eq_coe.mpr (List.Perm.append_left _ hp)
  · intro _
    refine ⟨brute_positions h (maxr * maxr) t0 t1 n0 n1, nodup_brute_positions _ _ _ _ _ _,
      fun a b => mem_brute_positions h (maxr * maxr) t0 t1 n0 n1 a b, ?_⟩
    have hperm := (kd_enum_internal_perm h t0 t1 n0 n1 maxr visit_edge s hsound hNd hw0 hw1
      hvisit).2
    rw [← brute_pairs_eq_map, Multiset.coe_add]
    exact Multiset.coe_eq_coe.mpr hperm

/-- The scenario of the specification: the three points against themselves with radius 5;
the nine position pairs are all within the radius and each is emitted once. -/
theorem pruning_equals_exhaustive_check_witness :
    RealMinSound plainHeader tree3 ∧ tree3.Nd = tree3.Nd ∧ WellFormed tree3 root3 ∧
      (∀ (u : List (KDEnumPair ℚ)) (p : KDEnumPair ℚ), (collect_edge u p).1 = 0) ∧
      Maxr2Normal (5 : ℚ) ∧
      Multiset.ofList
        (visited (kd_enum_internal plainHeader (plain_trav 5 collect_edge) tree3 tree3
          root3 root3 { userdata := [], calls := [] }).2.calls) =
      Multiset.ofList
        (visited (kd_enum_check plainHeader (plain_trav 5 collect_edge) tree3 tree3
          root3 root3 { userdata := [], calls := [] }).2.calls) ∧
      ∃ L : List (Nat × Nat), L.Nodup ∧
        (∀ a b, (a, b) ∈ L ↔
          (root3.start ≤ a ∧ a < root3.start + root3.size) ∧
            (root3.start ≤ b ∧ b < root3.start + root3.size) ∧
            dist2 plainHeader tree3 tree3 a b ≤ 5 * 5) ∧
        Multiset.ofList
            (visited (kd_enum_internal plainHeader (plain_trav 5 collect_edge) tree3 tree3
              root3 root3 { userdata := [], calls := [] }).2.calls) =
          Multiset.ofList (visited ([] : List (EnumCall ℚ))) +
            Multiset.ofList (L.map fun ab => pair_at plainHeader tree3 tree3 ab.1 ab.2) :=
  have hw := pruning_equals_exhaustive_check plainHeader tree3 tree3 root3 root3 5
    collect_edge { userdata := [], calls := [] } (plainHeader_sound tree3) rfl
    root3_wellFormed root3_wellFormed (fun _ _ => rfl)
  ⟨plainHeader_sound tree3, rfl, root3_wellFormed, fun _ _ => rfl, maxr2Normal_five,
    hw.1, hw.2 maxr2Normal_five⟩

theorem brute_positions_root3 :
    brute_positions plainHeader (5 ^ 2) tree3 tree3 root3 root3 =
      [(0, 0), (0, 1), (0, 2), (1, 0), (1, 1), (1, 2), (2, 0), (2, 1), (2, 2)] := by
  norm_num [brute_positions, root3, KDNode.start, KDNode.size, List.range', dist2, tree3,
    Finset.sum_range_succ, plainHeader, pts3, vec2, List.filterMap, -Prod.mk_zero_zero,
    -Prod.mk_one_one]

omit [LinearOrderedField R] in
theorem visit_all_abort_at (trav : EnumTraverseData σ R) (L : List (KDEnumPair R)) :
    ∀ (K : Nat) (s : EnumState σ R), 1 ≤ K →
      (∀ k, k + 1 < K → (replay_rcs trav.visit_edge s.userdata L)[k]? = some 0) →
      (∃ v, v ≠ 0 ∧ (replay_rcs trav.visit_edge s.userdata L)[K - 1]? = some v) →
      (visit_all trav L s).1 = -1 ∧
        visited (visit_all trav L s).2.calls = visited s.calls ++ L.take K := by
  induction L with
  | nil =>
    rintro K s _ _ ⟨v, _, hv⟩
    simp [replay_rcs] at hv
  | cons p ps ih =>
    intro K s hK hzero hab
    obtain ⟨v, hv0, hv⟩ := hab
    match K, hK with
    | 1, _ =>
      simp only [replay_rcs, Nat.sub_self, List.getElem?_cons_zero, Option.some.injEq] at hv
      simp only [visit_all, hv, ne_eq, hv0, not_false_eq_true, if_true, visited_append, visited,
        List.take_succ_cons, List.take_zero, and_self]
    | K + 2, _ =>
      have h0 := hzero 0 (by omega)
      simp only [replay_rcs, List.getElem?_cons_zero, Option.some.injEq] at h0
      simp only [visit_all, h0, ne_eq, not_true_eq_false, if_false]
      have hrec := ih (K + 1)
        { userdata := (trav.visit_edge s.userdata p).2,
          calls := s.calls ++ [EnumCall.visit_edge p 0] } (by omega)
        (fun k hk => by
          have := hzero (k + 1) (by omega)
          simpa [replay_rcs] using this)
        ⟨v, hv0, by simpa [replay_rcs] using hv⟩
      refine ⟨hrec.1, ?_⟩
      rw [hrec.2]
      simp [visited_append, visited]

theorem visit_all_quiet (maxr : R) (visit_edge : σ → KDEnumPair R → Int × σ)
    (L : List (KDEnumPair R)) (s : EnumState σ R) :
    visited (visit_all (plain_trav maxr (quiet visit_edge)) L s).2.calls =
      visited s.calls ++ L :=
  (visit_all_of_nonabort (plain_trav maxr (quiet visit_edge)) (fun _ _ => rfl) L s).2

theorem replay_rcs_abort_at (K : Nat) (v : Int) (L : List (KDEnumPair ℚ)) :
    ∀ (n k : Nat), k < L.length →
      (replay_rcs (abort_at K v) n L)[k]? = some (if n + k + 1 = K then v else 0) := by
  induction L with
  | nil => intro n k hk; simp at hk
  | cons p ps ih =>
    intro n k hk
    cases k with
    | zero => simp [replay_rcs, abort_at]
    | succ k =>
      simp only [replay_rcs, List.getElem?_cons_succ]
      rw [show (abort_at K v n p).2 = n + 1 from rfl, ih (n + 1) k (by simpa using hk)]
      rw [show n + 1 + k + 1 = n + (k + 1) + 1 by omega]

/-- In the three-point scenario a run whose visitor never aborts makes 9 visits. -/
theorem visits_length_root3 {σ : Type} (visit_edge : σ → KDEnumPair ℚ → Int × σ) (u : σ)
    (hvisit : ∀ u p, (visit_edge u p).1 = 0) :
    (visited (kd_enum plainHeader tree3 tree3 root3 root3 5 visit_edge none u).2.calls).length
      = 9 := by
  rw [kd_enum_eq]
  obtain ⟨_, hperm⟩ := kd_enum_internal_perm plainHeader tree3 tree3 root3 root3 5 visit_edge
    { userdata := u, calls := [] } (plainHeader_sound tree3) rfl root3_wellFormed
    root3_wellFormed hvisit
  rw [hperm.length_eq]
  simp only [visited, List.nil_append]
  rw [← pow_two, brute_pairs_eq_map, List.length_map, brute_positions_root3]
  rfl

theorem kd_enum_step_leaf1 (maxr2 : ℚ) (hm : 0 < maxr2) :
    kd_enum_step plainHeader maxr2 tree1 leaf1 leaf1 = EnumStep.leafstage := by
  have h1 : ¬ (0 : ℚ) > maxr2 * (100001 / 100000) := by
    have : 0 < maxr2 * (100001 / 100000) := by positivity
    exact not_lt.mpr this.le
  have h2 : ¬ (0 : ℚ) ≥ maxr2 := not_le.mpr hm
  simp [kd_enum_step, kd_enum_bounds, tree1, leaf1, plainHeader, KDNode.kd_node_min,
    KDNode.kd_node_max, List.range, List.range.loop, h2, hm.le]

theorem brute_pairs_leaf1 (maxr2 : ℚ) (hm : 0 < maxr2) :
    brute_pairs plainHeader maxr2 tree1 tree1 leaf1 leaf1 = [{ i := 0, j := 0, r := 0 }] := by
  simp [brute_pairs, leaf1, KDNode.start, KDNode.size, List.range', dist2, tree1, plainHeader,
    pair_at, hm.le, sqrtQ]

/-- The run on the one-point tree against itself with radius 1 and the visitor that
answers 5: one visit, return value `-1`. -/
theorem kd_enum_leaf1_answer5 :
    kd_enum plainHeader tree1 tree1 leaf1 leaf1 1 answer5 none () =
      (-1, { userdata := (),
             calls := [EnumCall.visit_edge ({ i := 0, j := 0, r := 0 } : KDEnumPair ℚ) 5] }) := by
  rw [kd_enum_eq, kd_enum_internal_unfold]
  have hs : kd_enum_step plainHeader (plain_trav (1 : ℚ) answer5).maxr2 tree1 leaf1 leaf1 =
      EnumStep.leafstage := kd_enum_step_leaf1 _ (by norm_num [plain_trav, kd_enum_trav])
  rw [hs]
  simp only [kd_enum_leafstage, plain_trav, kd_enum_trav]
  rw [kd_enum_check_eq, brute_pairs_leaf1 _ (by norm_num)]
  simp [visit_all, answer5]

/-- Claim C5 at a failing input: on the one-point tree against itself with radius 1 the
visitor is called once, answers 5, and `kd_enum` returns `-1`, not 5. -/
theorem kd_enum_abort_value_lost :
    (kd_enum plainHeader tree1 tree1 leaf1 leaf1 1 answer5 none ()).1 = -1 ∧
      (kd_enum plainHeader tree1 tree1 leaf1 leaf1 1 answer5 none ()).1 ≠ 5 ∧
      (kd_enum plainHeader tree1 tree1 leaf1 leaf1 1 answer5 none ()).2.calls =
        [EnumCall.visit_edge ({ i := 0, j := 0, r := 0 } : KDEnumPair ℚ) 5] := by
  rw [kd_enum_leaf1_answer5]
  exact ⟨rfl, by decide, rfl⟩

omit [LinearOrderedField R] in
theorem TraceShape.seq {rt1 rt2 : Int} {evs1 evs2 : List (EnumCall R)}
    (h1 : TraceShape rt1 evs1) (h2 : TraceShape rt2 evs2) (hrt : rt1 = 0) :
    TraceShape rt2 (evs1 ++ evs2) := by
  rcases h1 with ⟨_, hz1⟩ | ⟨hm, _⟩
  · rcases h2 with ⟨h0, hz2⟩ | ⟨hm, pre, e, rfl, hpre, he⟩
    · left
      refine ⟨h0, fun e he => ?_⟩
      rcases List.mem_append.mp he with hh | hh
      · exact hz1 e hh
      · exact hz2 e hh
    · right
      refine ⟨hm, evs1 ++ pre, e, by simp, fun e' he' => ?_, he⟩
      rcases List.mem_append.mp he' with hh | hh
      · exact hz1 e' hh
      · exact hpre e' hh
  · rw [hrt] at hm
    cases hm

omit [LinearOrderedField R] in
theorem visit_all_shape (trav : EnumTraverseData σ R) (L : List (KDEnumPair R))
    (s : EnumState σ R) :
    ∃ evs, (visit_all trav L s).2.calls = s.calls ++ evs ∧
      TraceShape (visit_all trav L s).1 evs := by
  induction L generalizing s with
  | nil => exact ⟨[], by simp [visit_all], Or.inl ⟨rfl, by simp⟩⟩
  | cons p ps ih =>
    simp only [visit_all]
    by_cases hrc : (trav.visit_edge s.userdata p).1 = 0
    · simp only [hrc, ne_eq, not_true_eq_false, if_false]
      obtain ⟨evs, hc, hshape⟩ := ih
        { userdata := (trav.visit_edge s.userdata p).2,
          calls := s.calls ++ [EnumCall.visit_edge p 0] }
      refine ⟨[EnumCall.visit_edge p 0] ++ evs, by rw [hc]; simp, ?_⟩
      exact TraceShape.seq (Or.inl ⟨rfl, by simp [EnumCall.rc]⟩) hshape rfl
    · simp only [ne_eq, hrc, not_false_eq_true, if_true]
      exact ⟨[EnumCall.visit_edge p (trav.visit_edge s.userdata p).1], rfl,
        Or.inr ⟨rfl, [], _, rfl, by simp, hrc⟩⟩

theorem kd_enum_leafstage_shape (h : KDHeader R) (trav : EnumTraverseData σ R)
    (t0 t1 : KDTree R) (n0 n1 : KDNode R) (dmin dmax : R) (s : EnumState σ R) :
    ∃ evs, (kd_enum_leafstage h trav t0 t1 n0 n1 dmin dmax s).2.calls = s.calls ++ evs ∧
      TraceShape (kd_enum_leafstage h trav t0 t1 n0 n1 dmin dmax s).1 evs := by
  unfold kd_enum_leafstage
  cases hp : trav.prune_nodes with
  | none =>
    simp only []
    rw [kd_enum_check_eq]
    exact visit_all_shape trav _ s
  | some prune =>
    simp only []
    generalize prune s.userdata
      { nodes0 := n0, nodes1 := n1, distmin2 := dmin, distmax2 := dmax } 1 = out
    obtain ⟨rc, op, u1⟩ := out
    simp only []
    by_cases hrc : rc = 0
    · subst hrc
      simp only [ne_eq, not_true_eq_false, if_false]
      by_cases hop : op = 0
      · simp only [hop, ne_eq, not_true_eq_false, if_false]
        exact ⟨_, rfl, Or.inl ⟨rfl, by simp [EnumCall.rc]⟩⟩
      · simp only [ne_eq, hop, not_false_eq_true, if_true]
        rw [kd_enum_check_eq]
        obtain ⟨evs, hc, hshape⟩ := visit_all_shape trav
          (brute_pairs h trav.maxr2 t0 t1 n0 n1)
          { userdata := u1,
            calls := s.calls ++ [EnumCall.prune_nodes
              { nodes0 := n0, nodes1 := n1, distmin2 := dmin, distmax2 := dmax } 0 op] }
        refine ⟨EnumCall.prune_nodes
          { nodes0 := n0, nodes1 := n1, distmin2 := dmin, distmax2 := dmax } 0 op :: evs,
          by rw [hc]; simp, ?_⟩
        exact @TraceShape.seq R 0 _
          [EnumCall.prune_nodes
            { nodes0 := n0, nodes1 := n1, distmin2 := dmin, distmax2 := dmax } 0 op] evs
          (Or.inl ⟨rfl, by simp [EnumCall.rc]⟩) hshape rfl
    · simp only [ne_eq, hrc, not_false_eq_true, if_true]
      exact ⟨[_], rfl, Or.inr ⟨rfl, [], _, rfl, by simp, hrc⟩⟩

/-- Every run of `kd_enum_internal` returns 0 or `-1`, appends to the call log, and a
non-zero answer of a callback is the last invocation of the run. -/
theorem kd_enum_internal_shape (h : KDHeader R) (trav : EnumTraverseData σ R)
    (t0 t1 : KDTree R) : ∀ (n0 n1 : KDNode R) (s : EnumState σ R),
    ∃ evs, (kd_enum_internal h trav t0 t1 n0 n1 s).2.calls = s.calls ++ evs ∧
      TraceShape (kd_enum_internal h trav t0 t1 n0 n1 s).1 evs := by
  apply kd_enum_step_induction h trav.maxr2 t0
  · intro n0 n1 hs s
    rw [kd_enum_internal_unfold, hs]
    exact ⟨[], by simp, Or.inl ⟨rfl, by simp⟩⟩
  · intro n0 n1 hs s
    rw [kd_enum_internal_unfold, hs]
    exact kd_enum_leafstage_shape h trav t0 t1 n0 n1 _ _ s
  · intro n0 n1 d st sz lo hi l0 l1 _ hs ih0 ih1 s
    rw [kd_enum_internal_unfold, hs]
    simp only [enum_seq]
    obtain ⟨evs0, hc0, hsh0⟩ := ih0 s
    by_cases hrt : (kd_enum_internal h trav t0 t1 l0 n1 s).1 = 0
    · simp only [hrt, ne_eq, not_true_eq_false, if_false]
      obtain ⟨evs1, hc1, hsh1⟩ := ih1 (kd_enum_internal h trav t0 t1 l0 n1 s).2
      exact ⟨evs0 ++ evs1, by rw [hc1, hc0, List.append_assoc], hsh0.seq hsh1 hrt⟩
    · simp only [ne_eq, hrt, not_false_eq_true, if_true]
      exact ⟨evs0, hc0, hsh0⟩
  · intro n0 n1 d st sz lo hi l0 l1 _ hs ih0 ih1 s
    rw [kd_enum_internal_unfold, hs]
    simp only [enum_seq]
    obtain ⟨evs0, hc0, hsh0⟩ := ih0 s
    by_cases hrt : (kd_enum_internal h trav t0 t1 n0 l0 s).1 = 0
    · simp only [hrt, ne_eq, not_true_eq_false, if_false]
      obtain ⟨evs1, hc1, hsh1⟩ := ih1 (kd_enum_internal h trav t0 t1 n0 l0 s).2
      exact ⟨evs0 ++ evs1, by rw [hc1, hc0, List.append_assoc], hsh0.seq hsh1 hrt⟩
    · simp only [ne_eq, hrt, not_false_eq_true, if_true]
      exact ⟨evs0, hc0, hsh0⟩

/-- Claim C7 (prune_nodes abort).  In every run of `kd_enum`, an invocation of
`prune_nodes` that answers a non-zero value is the last callback invocation of the run
(no `visit_edge` or `prune_nodes` call follows it) and `kd_enum` returns `-1`; the
invocations made before it stay in the record of the run. -/
theorem kd_enum_prune_abort (h : KDHeader R) (t0 t1 : KDTree R) (n0 n1 : KDNode R) (maxr : R)
    (visit_edge : σ → KDEnumPair R → Int × σ)
    (prune_nodes : Option (σ → KDEnumNodePair R → Int → Int × Int × σ)) (u : σ)
    (before after : List (EnumCall R)) (pair : KDEnumNodePair R) (rc open_ : Int)
    (hcalls : (kd_enum h t0 t1 n0 n1 maxr visit_edge prune_nodes u).2.calls =
      before ++ EnumCall.prune_nodes pair rc open_ :: after)
    (hrc : rc ≠ 0) :
    (kd_enum h t0 t1 n0 n1 maxr visit_edge prune_nodes u).1 = -1 ∧ after = [] := by
  obtain ⟨evs, hc, hshape⟩ := kd_enum_internal_shape h
    { maxr := maxr, maxr2 := maxr * maxr, visit_edge := visit_edge, prune_nodes := prune_nodes }
    t0 t1 n0 n1 { userdata := u, calls := [] }
  change (kd_enum h t0 t1 n0 n1 maxr visit_edge prune_nodes u).2.calls = [] ++ evs at hc
  change TraceShape (kd_enum h t0 t1 n0 n1 maxr visit_edge prune_nodes u).1 evs at hshape
  rw [List.nil_append] at hc
  rw [hc] at hcalls
  have hmem : EnumCall.prune_nodes pair rc open_ ∈ evs := by
    rw [hcalls]
    simp
  rcases hshape with ⟨_, hz⟩ | ⟨hm, pre, e, hev, hpre, _⟩
  · exact absurd (hz _ hmem) hrc
  · refine ⟨hm, ?_⟩
    by_contra hne
    have hd : evs.dropLast = before ++ EnumCall.prune_nodes pair rc open_ :: after.dropLast := by
      rw [hcalls, List.dropLast_append_of_ne_nil _ (by simp), List.dropLast_cons_of_ne_nil hne]
    rw [hev, List.dropLast_concat] at hd
    have : EnumCall.prune_nodes pair rc open_ ∈ pre := by
      rw [hd]
      simp
    exact hrc (hpre _ this)

/-- On the one-point tree against itself, a `prune_nodes` that answers 7 is the only
callback invoked and `kd_enum` returns `-1`. -/
theorem kd_enum_prune_abort_witness :
    (kd_enum plainHeader tree1 tree1 leaf1 leaf1 1 answer5 (some answer7) ()).2.calls =
        [] ++ EnumCall.prune_nodes
          { nodes0 := leaf1, nodes1 := leaf1,
            distmin2 := (kd_enum_bounds plainHeader tree1 leaf1 leaf1).1,
            distmax2 := (kd_enum_bounds plainHeader tree1 leaf1 leaf1).2 } 7 1 :: [] ∧
      (kd_enum plainHeader tree1 tree1 leaf1 leaf1 1 answer5 (some answer7) ()).1 = -1 ∧
      ([] : List (EnumCall ℚ)) = [] := by
  have hcalls : (kd_enum plainHeader tree1 tree1 leaf1 leaf1 1 answer5 (some answer7) ()).2.calls =
        [] ++ EnumCall.prune_nodes
          { nodes0 := leaf1, nodes1 := leaf1,
            distmin2 := (kd_enum_bounds plainHeader tree1 leaf1 leaf1).1,
            distmax2 := (kd_enum_bounds plainHeader tree1 leaf1 leaf1).2 } 7 1 :: [] := by
    unfold kd_enum
    rw [kd_enum_internal_unfold, kd_enum_step_leaf1 _ (by norm_num [kd_enum_trav])]
    simp [kd_enum_leafstage, kd_enum_trav, answer7]
  exact ⟨hcalls, kd_enum_prune_abort plainHeader tree1 tree1 leaf1 leaf1 1 answer5
    (some answer7) () [] [] _ 7 1 hcalls (by decide)⟩

theorem kd_enum_step_leafstage {h : KDHeader R} {maxr2 : R} {t0 : KDTree R} {n0 n1 : KDNode R}
    (hnear : ¬ (kd_enum_bounds h t0 n0 n1).1 > maxr2 * (100001 / 100000))
    (hstop : (kd_enum_bounds h t0 n0 n1).2 < maxr2 ∨ (n0.dim < 0 ∧ n1.dim < 0)) :
    kd_enum_step h maxr2 t0 n0 n1 = EnumStep.leafstage := by
  unfold kd_enum_step
  simp only [hnear, if_false]
  by_cases h2 : (kd_enum_bounds h t0 n0 n1).2 ≥ maxr2
  · rcases hstop with hlt | ⟨hd0, hd1⟩
    · exact absurd h2 (not_le.mpr hlt)
    · simp only [h2, if_true]
      cases n0 with
      | split d0 _ _ _ _ _ _ =>
        simp only [KDNode.dim] at hd0
        omega
      | leaf _ _ _ _ =>
        cases n1 with
        | split d1 _ _ _ _ _ _ =>
          simp only [KDNode.dim] at hd1
          omega
        | leaf _ _ _ _ => split_ifs <;> rfl
  · simp only [h2, if_false]

omit [LinearOrderedField R] in
theorem visit_all_congr (trav trav' : EnumTraverseData σ R)
    (hv : trav.visit_edge = trav'.visit_edge) (L : List (KDEnumPair R)) :
    ∀ s s' : EnumState σ R, s.userdata = s'.userdata → visited s.calls = visited s'.calls →
      (visit_all trav L s).1 = (visit_all trav' L s').1 ∧
        (visit_all trav L s).2.userdata = (visit_all trav' L s').2.userdata ∧
        visited (visit_all trav L s).2.calls = visited (visit_all trav' L s').2.calls := by
  induction L with
  | nil => intro s s' hu hc; exact ⟨rfl, hu, hc⟩
  | cons p ps ih =>
    intro s s' hu hc
    simp only [visit_all, ← hv, ← hu]
    by_cases hrc : (trav.visit_edge s.userdata p).1 = 0
    · simp only [hrc, ne_eq, not_true_eq_false, if_false]
      exact ih _ _ rfl (by simp [visited_append, visited, hc])
    · simp [hrc, visited_append, visited, hc]

theorem kd_enum_never_open (h : KDHeader R) (trav : EnumTraverseData σ R) (t0 t1 : KDTree R)
    (prune : σ → KDEnumNodePair R → Int → Int × Int × σ) (hp : trav.prune_nodes = some prune)
    (hnever : ∀ u p o, (prune u p o).1 = 0 ∧ (prune u p o).2.1 = 0) :
    ∀ (n0 n1 : KDNode R) (s : EnumState σ R),
      (kd_enum_internal h trav t0 t1 n0 n1 s).1 = 0 ∧
        visited (kd_enum_internal h trav t0 t1 n0 n1 s).2.calls = visited s.calls := by
  apply kd_enum_step_induction h trav.maxr2 t0
  · intro n0 n1 hs s
    rw [kd_enum_internal_unfold, hs]
    exact ⟨rfl, rfl⟩
  · intro n0 n1 hs s
    rw [kd_enum_internal_unfold, hs]
    simp only [kd_enum_leafstage, hp, (hnever _ _ _).1, (hnever _ _ _).2, ne_eq,
      not_true_eq_false, if_false, visited_append, visited, List.append_nil, and_self]
  · intro n0 n1 d st sz lo hi l0 l1 _ hs ih0 ih1 s
    rw [kd_enum_internal_unfold, hs]
    simp only [enum_seq, (ih0 s).1, ne_eq, not_true_eq_false, if_false]
    exact ⟨(ih1 _).1, by rw [(ih1 _).2, (ih0 s).2]⟩
  · intro n0 n1 d st sz lo hi l0 l1 _ hs ih0 ih1 s
    rw [kd_enum_internal_unfold, hs]
    simp only [enum_seq, (ih0 s).1, ne_eq, not_true_eq_false, if_false]
    exact ⟨(ih1 _).1, by rw [(ih1 _).2, (ih0 s).2]⟩

theorem kd_enum_always_open (h : KDHeader R) (trav trav' : EnumTraverseData σ R)
    (t0 t1 : KDTree R) (prune : σ → KDEnumNodePair R → Int → Int × Int × σ)
    (hp : trav.prune_nodes = some prune) (hp' : trav'.prune_nodes = none)
    (hm : trav'.maxr2 = trav.maxr2) (hv : trav.visit_edge = trav'.visit_edge)
    (halways : ∀ u p, prune u p 1 = (0, 1, u)) :
    ∀ (n0 n1 : KDNode R) (s s' : EnumState σ R),
      s.userdata = s'.userdata → visited s.calls = visited s'.calls →
      (kd_enum_internal h trav t0 t1 n0 n1 s).1 = (kd_enum_internal h trav' t0 t1 n0 n1 s').1 ∧
        (kd_enum_internal h trav t0 t1 n0 n1 s).2.userdata =
          (kd_enum_internal h trav' t0 t1 n0 n1 s').2.userdata ∧
        visited (kd_enum_internal h trav t0 t1 n0 n1 s).2.calls =
          visited (kd_enum_internal h trav' t0 t1 n0 n1 s').2.calls := by
  apply kd_enum_step_induction h trav.maxr2 t0
  · intro n0 n1 hs s s' hu hc
    rw [kd_enum_internal_unfold, kd_enum_internal_unfold, hm, hs]
    exact ⟨rfl, hu, hc⟩
  · intro n0 n1 hs s s' hu hc
    rw [kd_enum_internal_unfold, kd_enum_internal_unfold, hm, hs]
    simp only [kd_enum_leafstage, hp, hp', halways, ne_eq, not_true_eq_false, if_false,
      one_ne_zero, not_false_eq_true, if_true]
    rw [kd_enum_check_eq, kd_enum_check_eq, hm]
    exact visit_all_congr trav trav' hv _ _ _ hu (by simp [visited_append, visited, hc])
  · intro n0 n1 d st sz lo hi l0 l1 _ hs ih0 ih1 s s' hu hc
    rw [kd_enum_internal_unfold, kd_enum_internal_unfold, hm, hs]
    obtain ⟨h1, h2, h3⟩ := ih0 s s' hu hc
    simp only [enum_seq, h1]
    by_cases hrt : (kd_enum_internal h trav' t0 t1 l0 n1 s').1 = 0
    · simp only [hrt, ne_eq, not_true_eq_false, if_false]
      exact ih1 _ _ h2 h3
    · simp only [ne_eq, hrt, not_false_eq_true, if_true]
      exact ⟨h1, h2, h3⟩
  · intro n0 n1 d st sz lo hi l0 l1 _ hs ih0 ih1 s s' hu hc
    rw [kd_enum_internal_unfold, kd_enum_internal_unfold, hm, hs]
    obtain ⟨h1, h2, h3⟩ := ih0 s s' hu hc
    simp only [enum_seq, h1]
    by_cases hrt : (kd_enum_internal h trav' t0 t1 n0 l0 s').1 = 0
    · simp only [hrt, ne_eq, not_true_eq_false, if_false]
      exact ih1 _ _ h2 h3
    · simp only [ne_eq, hrt, not_false_eq_true, if_true]
      exact ⟨h1, h2, h3⟩

/-- Claim C6 (prune_nodes skip).  (1) On a node pair that reaches the leaf-check stage
(not too far, and fully inside or both leaves), if `prune_nodes` answers 0 and sets `open`
to 0, the call returns 0 having invoked nothing but that `prune_nodes`: `kd_enum_check` is
not run.  (2) A `prune_nodes` that always answers 0 with `open = 0` makes `kd_enum` return
0 without any `visit_edge` call.  (3) A `prune_nodes` that always answers 0, leaves
`open = 1` and does not touch the userdata gives the same return value, the same userdata
and the same sequence of visits as passing no `prune_nodes`. -/
theorem kd_enum_prune_skip (h : KDHeader R) (t0 t1 : KDTree R) (n0 n1 : KDNode R) (maxr : R)
    (visit_edge : σ → KDEnumPair R → Int × σ)
    (prune : σ → KDEnumNodePair R → Int → Int × Int × σ) :
    (∀ s : EnumState σ R,
      ¬ (kd_enum_bounds h t0 n0 n1).1 > maxr * maxr * (100001 / 100000) →
      ((kd_enum_bounds h t0 n0 n1).2 < maxr * maxr ∨ (n0.dim < 0 ∧ n1.dim < 0)) →
      (prune s.userdata
        { nodes0 := n0, nodes1 := n1, distmin2 := (kd_enum_bounds h t0 n0 n1).1,
          distmax2 := (kd_enum_bounds h t0 n0 n1).2 } 1).1 = 0 →
      (prune s.userdata
        { nodes0 := n0, nodes1 := n1, distmin2 := (kd_enum_bounds h t0 n0 n1).1,
          distmax2 := (kd_enum_bounds h t0 n0 n1).2 } 1).2.1 = 0 →
      kd_enum_internal h (kd_enum_trav maxr visit_edge (some prune)) t0 t1 n0 n1 s =
        (0, { userdata := (prune s.userdata
                { nodes0 := n0, nodes1 := n1, distmin2 := (kd_enum_bounds h t0 n0 n1).1,
                  distmax2 := (kd_enum_bounds h t0 n0 n1).2 } 1).2.2,
              calls := s.calls ++ [EnumCall.prune_nodes
                { nodes0 := n0, nodes1 := n1, distmin2 := (kd_enum_bounds h t0 n0 n1).1,
                  distmax2 := (kd_enum_bounds h t0 n0 n1).2 } 0 0] })) ∧
    (∀ u : σ, (∀ u p o, (prune u p o).1 = 0 ∧ (prune u p o).2.1 = 0) →
      (kd_enum h t0 t1 n0 n1 maxr visit_edge (some prune) u).1 = 0 ∧
        visited (kd_enum h t0 t1 n0 n1 maxr visit_edge (some prune) u).2.calls = []) ∧
    (∀ u : σ, (∀ u p, prune u p 1 = (0, 1, u)) →
      (kd_enum h t0 t1 n0 n1 maxr visit_edge (some prune) u).1 =
          (kd_enum h t0 t1 n0 n1 maxr visit_edge none u).1 ∧
        (kd_enum h t0 t1 n0 n1 maxr visit_edge (some prune) u).2.userdata =
          (kd_enum h t0 t1 n0 n1 maxr visit_edge none u).2.userdata ∧
        visited (kd_enum h t0 t1 n0 n1 maxr visit_edge (some prune) u).2.calls =
          visited (kd_enum h t0 t1 n0 n1 maxr visit_edge none u).2.calls) := by
  refine ⟨?_, ?_, ?_⟩
  · intro s hnear hstop hrc hop
    rw [kd_enum_internal_unfold]
    have hs : kd_enum_step h (kd_enum_trav maxr visit_edge (some prune)).maxr2 t0 n0 n1 =
        EnumStep.leafstage := kd_enum_step_leafstage hnear hstop
    rw [hs]
    simp only [kd_enum_leafstage, kd_enum_trav, hrc, hop, ne_eq, not_true_eq_false, if_false]
  · intro u hnever
    exact kd_enum_never_open h (kd_enum_trav maxr visit_edge (some prune)) t0 t1 prune rfl
      hnever n0 n1 { userdata := u, calls := [] }
  · intro u halways
    exact kd_enum_always_open h (kd_enum_trav maxr visit_edge (some prune))
      (kd_enum_trav maxr visit_edge none) t0 t1 prune rfl rfl rfl rfl halways n0 n1
      { userdata := u, calls := [] } { userdata := u, calls := [] } rfl rfl

/-- In the three-point scenario: with `never_open` no pair is visited and `kd_enum`
returns 0; with `always_open` the run is that of no `prune_nodes`. -/
theorem kd_enum_prune_skip_witness :
    kd_enum_internal plainHeader (kd_enum_trav 1 answer0 (some never_open)) tree1 tree1 leaf1
        leaf1 { userdata := (), calls := [] } =
      (0, { userdata := (),
            calls := [EnumCall.prune_nodes
              { nodes0 := leaf1, nodes1 := leaf1,
                distmin2 := (kd_enum_bounds plainHeader tree1 leaf1 leaf1).1,
                distmax2 := (kd_enum_bounds plainHeader tree1 leaf1 leaf1).2 } 0 0] }) ∧
    ((kd_enum plainHeader tree3 tree3 root3 root3 5 answer0 (some never_open) ()).1 = 0 ∧
      visited (kd_enum plainHeader tree3 tree3 root3 root3 5 answer0 (some never_open)
        ()).2.calls = []) ∧
    ((kd_enum plainHeader tree3 tree3 root3 root3 5 answer0 (some always_open) ()).1 =
        (kd_enum plainHeader tree3 tree3 root3 root3 5 answer0 none ()).1 ∧
      (kd_enum plainHeader tree3 tree3 root3 root3 5 answer0 (some always_open) ()).2.userdata =
        (kd_enum plainHeader tree3 tree3 root3 root3 5 answer0 none ()).2.userdata ∧
      visited (kd_enum plainHeader tree3 tree3 root3 root3 5 answer0 (some always_open)
        ()).2.calls =
        visited (kd_enum plainHeader tree3 tree3 root3 root3 5 answer0 none ()).2.calls) :=
  ⟨(kd_enum_prune_skip plainHeader tree1 tree1 leaf1 leaf1 1 answer0 never_open).1
      { userdata := (), calls := [] }
      (by norm_num [kd_enum_bounds, tree1, leaf1, plainHeader, KDNode.kd_node_min,
        KDNode.kd_node_max, List.range, List.range.loop])
      (Or.inr ⟨by decide, by decide⟩) rfl rfl,
    (kd_enum_prune_skip plainHeader tree3 tree3 root3 root3 5 answer0 never_open).2.1 ()
      (fun _ _ _ => ⟨rfl, rfl⟩),
    (kd_enum_prune_skip plainHeader tree3 tree3 root3 root3 5 answer0 always_open).2.2 ()
      (fun _ _ => rfl)⟩

theorem distance_loop_eq (tree : KDTree R) (x y : Nat → R) (n : Nat) :
    (List.range n).foldl
      (fun (acc : R × (Nat → R)) d =>
        (acc.1 + distance_wrap tree d (y d - x d) * distance_wrap tree d (y d - x d),
          Function.update acc.2 d (distance_wrap tree d (y d - x d)))) (0, fun _ => 0) =
      (∑ d in Finset.range n, distance_wrap tree d (y d - x d) ^ 2,
        fun d => if d < n then distance_wrap tree d (y d - x d) else 0) := by
  induction n with
  | zero => simp
  | succ n ih =>
    rw [List.range_succ, List.foldl_append, ih, Finset.sum_range_succ]
    simp only [List.foldl_cons, List.foldl_nil, pow_two, Prod.mk.injEq, true_and]
    funext d
    by_cases hd : d = n
    · subst hd
      simp
    · rw [Function.update_noteq hd]
      by_cases hlt : d < n
      · simp [hlt, Nat.lt_succ_of_lt hlt]
      · have : ¬ d < n + 1 := by omega
        simp [hlt, this]

theorem distance_eq (tree : KDTree R) (x y : Nat → R) :
    distance tree x y =
      (∑ d in Finset.range tree.Nd, distance_wrap tree d (y d - x d) ^ 2,
        fun d => if d < tree.Nd then distance_wrap tree d (y d - x d) else 0) :=
  distance_loop_eq tree x y tree.Nd

/-- Claim C10 (periodic minimum-image distance).  On a periodic tree, on every axis `d`
whose period `P d` is positive and for coordinates with `|y d - x d| <= P d`, the function
`distance` of kd_force.c fills `dx[d]` with a displacement of absolute value at most
`P d / 2` that differs from `y d - x d` by `-P d`, `0` or `P d`; and the returned `r2` is
the sum of the squares of the `dx[d]`. -/
theorem distance_minimum_image (tree : KDTree R) (P : Nat → R) (x y : Nat → R)
    (hbox : tree.boxsize = some P) :
    (∀ d, d < tree.Nd → 0 < P d → |y d - x d| ≤ P d →
      |(distance tree x y).2 d| ≤ P d / 2 ∧
        ((distance tree x y).2 d - (y d - x d) = -P d ∨
          (distance tree x y).2 d - (y d - x d) = 0 ∨
          (distance tree x y).2 d - (y d - x d) = P d)) ∧
      (distance tree x y).1 = ∑ d in Finset.range tree.Nd, (distance tree x y).2 d ^ 2 := by
  rw [distance_eq]
  refine ⟨fun d hd hp hxy => ?_, ?_⟩
  · simp only [hd, if_true, distance_wrap, hbox]
    have hb := abs_le.mp hxy
    split_ifs with h1 h2
    · refine ⟨abs_le.mpr ⟨by linarith, by linarith⟩, Or.inl (by ring)⟩
    · refine ⟨abs_le.mpr ⟨by linarith, by linarith⟩, Or.inr (Or.inr (by ring))⟩
    · refine ⟨abs_le.mpr ⟨by linarith, by linarith⟩, Or.inr (Or.inl (by ring))⟩
  · show ∑ d in Finset.range tree.Nd, distance_wrap tree d (y d - x d) ^ 2 =
      ∑ d in Finset.range tree.Nd,
        (if d < tree.Nd then distance_wrap tree d (y d - x d) else 0) ^ 2
    apply Finset.sum_congr rfl
    intro d hd
    simp only [Finset.mem_range.mp hd, if_true]

/-- The example of the specification: on the line of period 1 the positions `0.1` and `0.9`
are at squared distance `0.04`, not `0.64`. -/
theorem distance_minimum_image_witness :
    (distance ring1 (fun _ => 1 / 10) (fun _ => 9 / 10)).1 = 4 / 100 ∧
      (distance ring1 (fun _ => 1 / 10) (fun _ => 9 / 10)).2 0 = -(2 / 10) := by
  have hw := distance_minimum_image ring1 (fun _ => 1) (fun _ => 1 / 10) (fun _ => 9 / 10) rfl
  have hw0 := hw.1 0 (by decide) (by norm_num) (by norm_num [abs_le])
  have h0 : (distance ring1 (fun _ => 1 / 10) (fun _ => 9 / 10)).2 0 = -(2 / 10) := by
    rcases hw0.2 with h | h | h
    · linarith
    · have := abs_le.mp hw0.1
      norm_num at this h
      linarith
    · have := abs_le.mp hw0.1
      norm_num at this h
      linarith
  refine ⟨?_, h0⟩
  rw [hw.2]
  have hn : ring1.Nd = 1 := rfl
  rw [hn, Finset.sum_range_one, h0]
  norm_num

theorem list_sum_range_map (f : Nat → R) (n : Nat) :
    ((List.range n).map f).sum = ∑ d in Finset.range n, f d := by
  induction n with
  | zero => simp
  | succ n ih => rw [List.range_succ, List.map_append, List.sum_append, ih,
      Finset.sum_range_succ]; simp

/-- When the loop over the axes returns early, every point of the box is beyond the
cutoff. -/
theorem kd_force_bounds_none (h : KDHeader R) (trav : ForceTraverseData R) (tree : KDTree R)
    (node : KDNode R) (hsound : ForceRealMinSound h tree) (p : Nat → R)
    (hp : ∀ d, d < tree.Nd → node.kd_node_min d ≤ p d ∧ p d ≤ node.kd_node_max d) :
    ∀ (ds : List Nat) (acc : R × R) (A : R), (∀ d ∈ ds, d < tree.Nd) → acc.1 ≤ A →
      kd_force_bounds h trav tree node ds acc = none →
      trav.r_cut2 < A + (ds.map fun d => distance_wrap tree d (p d - trav.pos d) ^ 2).sum := by
  intro ds
  induction ds with
  | nil => intro acc A _ _ hnone; simp [kd_force_bounds] at hnone
  | cons d ds ih =>
    intro acc A hds hacc hnone
    have hd : d < tree.Nd := hds d (List.mem_cons_self _ _)
    have hs := hsound d (trav.pos d - node.kd_node_max d) (trav.pos d - node.kd_node_min d)
      (trav.pos d - p d) hd (by linarith [(hp d hd).2]) (by linarith [(hp d hd).1])
    rw [neg_sub] at hs
    have hsq := sq_le_sq.mpr hs
    rw [pow_two] at hsq
    simp only [kd_force_bounds] at hnone
    simp only [List.map_cons, List.sum_cons]
    have hrest : 0 ≤ (ds.map fun d => distance_wrap tree d (p d - trav.pos d) ^ 2).sum := by
      apply List.sum_nonneg
      intro x hx
      obtain ⟨d', _, rfl⟩ := List.mem_map.mp hx
      exact sq_nonneg _
    split_ifs at hnone with hgt
    · linarith
    · have := ih _ (A + distance_wrap tree d (p d - trav.pos d) ^ 2)
        (fun d' hd' => hds d' (List.mem_cons_of_mem _ hd')) (by simpa using by linarith) hnone
      linarith

theorem kd_force_leaf_step_eq (h : KDHeader R) (tree : KDTree R) (pos : Nat → R)
    (mass xmass : KDAttr R) (r_cut eta : R) (func : R → (Nat → R) → Nat → Nat → R)
    (node : KDNode R) (st : ForceState R) (k : Nat) :
    (kd_force_leaf_step h (kd_force_trav tree pos mass xmass r_cut eta func) tree
        (kd_collect node tree.input) (kd_collect node mass.input) st k).node_computed =
        st.node_computed ∧
      ∀ d, d < tree.Nd →
        (kd_force_leaf_step h (kd_force_trav tree pos mass xmass r_cut eta func) tree
          (kd_collect node tree.input) (kd_collect node mass.input) st k).force d =
          st.force d + direct_term h tree pos mass r_cut func (node.start + k) d := by
  have hc : kd_collect node tree.input k = tree.input (node.start + k) := rfl
  have hm : kd_collect node mass.input k 0 = mass.input (node.start + k) 0 := rfl
  unfold kd_force_leaf_step direct_term
  simp only [kd_force_trav, hc, hm, ← pow_two]
  split_ifs with hq
  · exact ⟨rfl, fun d hd => by simp only [force_add, hd, if_true]⟩
  · exact ⟨rfl, fun d _ => by simp⟩

theorem kd_force_leaf_loop (h : KDHeader R) (tree : KDTree R) (pos : Nat → R)
    (mass xmass : KDAttr R) (r_cut eta : R) (func : R → (Nat → R) → Nat → Nat → R)
    (node : KDNode R) (n : Nat) (st : ForceState R) :
    ((List.range n).foldl
        (kd_force_leaf_step h (kd_force_trav tree pos mass xmass r_cut eta func) tree
          (kd_collect node tree.input) (kd_collect node mass.input)) st).node_computed =
        st.node_computed ∧
      ∀ d, d < tree.Nd →
        ((List.range n).foldl
          (kd_force_leaf_step h (kd_force_trav tree pos mass xmass r_cut eta func) tree
            (kd_collect node tree.input) (kd_collect node mass.input)) st).force d =
          st.force d + ∑ k in Finset.range n,
            direct_term h tree pos mass r_cut func (node.start + k) d := by
  induction n with
  | zero => simp
  | succ n ih =>
    rw [List.range_succ, List.foldl_append]
    simp only [List.foldl_cons, List.foldl_nil]
    obtain ⟨ih1, ih2⟩ := ih
    obtain ⟨s1, s2⟩ := kd_force_leaf_step_eq h tree pos mass xmass r_cut eta func node
      ((List.range n).foldl
        (kd_force_leaf_step h (kd_force_trav tree pos mass xmass r_cut eta func) tree
          (kd_collect node tree.input) (kd_collect node mass.input)) st) n
    refine ⟨by rw [s1, ih1], fun d hd => ?_⟩
    rw [s2 d hd, ih2 d hd, Finset.sum_range_succ, add_assoc]

theorem kd_force_leaf_eq (h : KDHeader R) (tree : KDTree R) (pos : Nat → R)
    (mass xmass : KDAttr R) (r_cut eta : R) (func : R → (Nat → R) → Nat → Nat → R)
    (node : KDNode R) (st : ForceState R) :
    (kd_force_leaf h (kd_force_trav tree pos mass xmass r_cut eta func) tree node
        st).node_computed = st.node_computed ∧
      ∀ d, d < tree.Nd →
        (kd_force_leaf h (kd_force_trav tree pos mass xmass r_cut eta func) tree node
          st).force d = st.force d + direct_sum h tree pos mass r_cut func node d := by
  unfold kd_force_leaf direct_sum
  have hl := kd_force_leaf_loop h tree pos mass xmass r_cut eta func node node.size
    { st with pair_computed := st.pair_computed + node.size }
  refine ⟨hl.1, fun d hd => (hl.2 d hd).trans ?_⟩
  rw [Finset.sum_Ico_eq_sum_range]
  simp

/-- With `eta2 = 0` the traversal never approximates a node and accumulates the direct
summation over the points of the subtree. -/
theorem kd_force_check_exact (h : KDHeader R) (tree : KDTree R) (pos : Nat → R)
    (mass xmass : KDAttr R) (r_cut : R) (func : R → (Nat → R) → Nat → Nat → R)
    (hsound : ForceRealMinSound h tree) (node : KDNode R) (hw : WellFormed tree node) :
    ∀ st : ForceState R,
      (kd_force_check h (kd_force_trav tree pos mass xmass r_cut 0 func) tree node
          st).node_computed = st.node_computed ∧
        ∀ d, d < tree.Nd →
          (kd_force_check h (kd_force_trav tree pos mass xmass r_cut 0 func) tree node
            st).force d = st.force d + direct_sum h tree pos mass r_cut func node d := by
  induction node with
  | leaf start size lo hi =>
    intro st
    exact kd_force_leaf_eq h tree pos mass xmass r_cut 0 func _ st
  | split dim start size lo hi l0 l1 ih0 ih1 =>
    intro st
    obtain ⟨hbox, hsz, hpart, hw0, hw1⟩ := hw
    simp only [kd_force_check]
    split_ifs with hbig
    · cases hb : kd_force_bounds h (kd_force_trav tree pos mass xmass r_cut 0 func) tree
          (KDNode.split dim start size lo hi l0 l1)
          (List.range (kd_force_trav tree pos mass xmass r_cut 0 func).node_ndims) (0, 0) with
      | none =>
        refine ⟨rfl, fun d _ => ?_⟩
        show st.force d = _
        have hzero : direct_sum h tree pos mass r_cut func
            (KDNode.split dim start size lo hi l0 l1) d = 0 := by
          unfold direct_sum
          apply Finset.sum_eq_zero
          intro i hi'
          rw [Finset.mem_Ico] at hi'
          have hfar := kd_force_bounds_none h (kd_force_trav tree pos mass xmass r_cut 0 func)
            tree (KDNode.split dim start size lo hi l0 l1) hsound (tree.input i)
            (fun d hd => hbox i d hi'.1 hi'.2 hd) (List.range tree.Nd) (0, 0) 0
            (fun d hd => List.mem_range.mp hd) (le_refl _) hb
          have hpos : (kd_force_trav tree pos mass xmass r_cut 0 func).pos = pos := rfl
          have hcut : (kd_force_trav tree pos mass xmass r_cut 0 func).r_cut2 = r_cut * r_cut :=
            rfl
          rw [hpos, hcut, zero_add, list_sum_range_map
            (fun d => distance_wrap tree d (tree.input i d - pos d) ^ 2)] at hfar
          unfold direct_term
          rw [if_neg]
          rw [distance_eq, pow_two]
          exact not_le.mpr hfar
        rw [hzero, add_zero]
      | some b =>
        obtain ⟨r2min, r2max⟩ := b
        simp only []
        have hno : ¬ (r2max ≤ (kd_force_trav tree pos mass xmass r_cut 0 func).r_cut2 ∧
            (List.range (kd_force_trav tree pos mass xmass r_cut 0 func).node_ndims).foldl
                (fun l d => l + (hi d - lo d)) 0 *
              (List.range (kd_force_trav tree pos mass xmass r_cut 0 func).node_ndims).foldl
                (fun l d => l + (hi d - lo d)) 0 <
              (kd_force_trav tree pos mass xmass r_cut 0 func).eta2 * r2min) := by
          rintro ⟨_, hlt⟩
          have : (kd_force_trav tree pos mass xmass r_cut 0 func).eta2 = 0 := by
            simp [kd_force_trav]
          rw [this, zero_mul] at hlt
          exact absurd (mul_self_nonneg _) (not_le.mpr hlt)
        rw [if_neg hno]
        obtain ⟨a1, a2⟩ := ih0 hw0 { st with node_probed := st.node_probed + 1 }
        obtain ⟨b1, b2⟩ := ih1 hw1
          (kd_force_check h (kd_force_trav tree pos mass xmass r_cut 0 func) tree l0
            { st with node_probed := st.node_probed + 1 })
        refine ⟨by rw [b1, a1], fun d hd => ?_⟩
        rw [b2 d hd, a2 d hd, add_assoc]
        congr 1
        unfold direct_sum
        show _ = ∑ i in Finset.Ico start (start + size), _
        rcases hpart with ⟨h0, h1⟩ | ⟨h1, h0⟩
        · rw [h0, h1, ← hsz, ← add_assoc]
          exact Finset.sum_Ico_consecutive _ (by omega) (by omega)
        · rw [h0, h1, ← hsz, add_comm l0.size, ← add_assoc, add_comm]
          exact Finset.sum_Ico_consecutive _ (by omega) (by omega)
    · exact kd_force_leaf_eq h tree pos mass xmass r_cut 0 func _ st

/-- Claim C8 (force exactness at zero opening angle).  For a well-formed tree and a sound
`realmin`, every query point, cutoff and interaction function, `kd_force` with `eta = 0`
never takes the pseudo-particle branch and outputs in `force[d]` the sum over the points
`i` of the node within the cutoff of `m_i * f(sqrt(dist2), dx_i)[d]`: the direct summation
in exact arithmetic. -/
theorem kd_force_exact_at_zero_eta (h : KDHeader R) (tree : KDTree R) (pos : Nat → R)
    (node : KDNode R) (mass xmass : KDAttr R) (r_cut : R) (force : Nat → R)
    (func : R → (Nat → R) → Nat → Nat → R)
    (hsound : ForceRealMinSound h tree) (hw : WellFormed tree node) :
    (kd_force h tree pos node mass xmass r_cut 0 force func).node_computed = 0 ∧
      ∀ d, d < tree.Nd →
        (kd_force h tree pos node mass xmass r_cut 0 force func).force d =
          direct_sum h tree pos mass r_cut func node d := by
  obtain ⟨h1, h2⟩ := kd_force_check_exact h tree pos mass xmass r_cut func hsound node hw
    { force := fun d => if d < tree.Nd then 0 else force d, node_probed := 0,
      node_computed := 0, pair_computed := 0, calls := [] }
  refine ⟨h1, fun d hd => ?_⟩
  have := h2 d hd
  simp only [hd, if_true, zero_add] at this
  exact this

theorem plainHeader_force_sound (t : KDTree ℚ) (hbox : t.boxsize = none) :
    ForceRealMinSound plainHeader t := by
  intro d lo hi delta hd hlo hhi
  have hs := plainHeader_sound t d lo hi delta hd hlo hhi
  simp only [distance_wrap, hbox]
  exact hs

theorem root2_wellFormed : WellFormed tree2 root2 := by
  simp only [root2, WellFormed, BoxContains, KDNode.start, KDNode.size, KDNode.kd_node_min,
    KDNode.kd_node_max, tree2]
  refine ⟨?_, by norm_num, by norm_num, ?_, ?_⟩ <;>
  · intro i d h1 h2 h3
    interval_cases i <;> norm_num

/-- Two unit masses at 10 and 11 on the line, seen from 0 with cutoff 100 and `eta = 0`:
no node is approximated and the output is the direct summation. -/
theorem kd_force_exact_at_zero_eta_witness :
    ForceRealMinSound plainHeader tree2 ∧ WellFormed tree2 root2 ∧
      (kd_force plainHeader tree2 (fun _ => 0) root2 mass2 xmass2 100 0 (fun _ => 0)
        linear_force).node_computed = 0 ∧
      ∀ d, d < tree2.Nd →
        (kd_force plainHeader tree2 (fun _ => 0) root2 mass2 xmass2 100 0 (fun _ => 0)
          linear_force).force d =
          direct_sum plainHeader tree2 (fun _ => 0) mass2 100 linear_force root2 d :=
  ⟨plainHeader_force_sound tree2 rfl, root2_wellFormed,
    kd_force_exact_at_zero_eta plainHeader tree2 (fun _ => 0) root2 mass2 xmass2 100
      (fun _ => 0) linear_force (plainHeader_force_sound tree2 rfl) root2_wellFormed⟩

omit [LinearOrderedField R] in
theorem visit_rcs_append (l1 l2 : List (EnumCall R)) :
    visit_rcs (l1 ++ l2) = visit_rcs l1 ++ visit_rcs l2 := by
  induction l1 with
  | nil => rfl
  | cons c cs ih => cases c <;> simp [visit_rcs, ih]

omit [LinearOrderedField R] in
theorem visit_rcs_length (l : List (EnumCall R)) : (visit_rcs l).length = (visited l).length := by
  induction l with
  | nil => rfl
  | cons c cs ih => cases c <;> simp [visit_rcs, visited, ih]

omit [LinearOrderedField R] in
theorem visit_rcs_zero (l : List (EnumCall R)) (hz : ∀ e ∈ l, e.rc = 0) :
    ∀ v ∈ visit_rcs l, v = 0 := by
  induction l with
  | nil => intro v hv; simp [visit_rcs] at hv
  | cons c cs ih =>
    have hcs : ∀ e ∈ cs, e.rc = 0 := fun e he => hz e (List.mem_cons_of_mem _ he)
    cases c with
    | visit_edge p rc =>
      intro v hv
      simp only [visit_rcs, List.mem_cons] at hv
      rcases hv with rfl | hv
      · exact hz (EnumCall.visit_edge p v) (List.mem_cons_self _ _)
      · exact ih hcs v hv
    | prune_nodes p rc o => exact ih hcs

omit [LinearOrderedField R] in
theorem QuietSim.same (r : Int × EnumState σ R) : QuietSim r r :=
  ⟨fun _ => rfl, fun _ => List.prefix_refl _⟩

omit [LinearOrderedField R] in
theorem enum_seq_of_eq {f g : EnumState σ R → Int × EnumState σ R} {s : EnumState σ R}
    (hf : (f s).1 = 0) : enum_seq f g s = g (f s).2 := by
  simp [enum_seq, hf]

omit [LinearOrderedField R] in
theorem enum_seq_of_ne {f g : EnumState σ R → Int × EnumState σ R} {s : EnumState σ R}
    (hf : (f s).1 ≠ 0) : enum_seq f g s = f s := by
  simp [enum_seq, hf]

omit [LinearOrderedField R] in
theorem visit_all_quiet_sim (trav travq : EnumTraverseData σ R)
    (hq : travq.visit_edge = quiet trav.visit_edge) (L : List (KDEnumPair R)) :
    ∀ s : EnumState σ R, QuietSim (visit_all trav L s) (visit_all travq L s) := by
  induction L with
  | nil => intro s; exact QuietSim.same _
  | cons p ps ih =>
    intro s
    have e2 : visit_all travq (p :: ps) s = visit_all travq ps
        { userdata := (trav.visit_edge s.userdata p).2,
          calls := s.calls ++ [EnumCall.visit_edge p 0] } := by
      simp [visit_all, hq, quiet]
    by_cases hrc : (trav.visit_edge s.userdata p).1 = 0
    · have e1 : visit_all trav (p :: ps) s = visit_all trav ps
          { userdata := (trav.visit_edge s.userdata p).2,
            calls := s.calls ++ [EnumCall.visit_edge p 0] } := by
        simp [visit_all, hrc]
      rw [e1, e2]
      exact ih _
    · have e1 : visit_all trav (p :: ps) s =
          (-1, { userdata := (trav.visit_edge s.userdata p).2,
                 calls := s.calls ++
                   [EnumCall.visit_edge p (trav.visit_edge s.userdata p).1] }) := by
        simp [visit_all, hrc]
      rw [e1, e2]
      refine ⟨fun hz => absurd (show (-1 : Int) = 0 from hz) (by decide), fun _ => ?_⟩
      have hv := (visit_all_of_nonabort travq (by intro u p; rw [hq]; rfl) ps
        { userdata := (trav.visit_edge s.userdata p).2,
          calls := s.calls ++ [EnumCall.visit_edge p 0] }).2
      rw [hv]
      simp only [visited_append, visited]
      exact List.prefix_append _ _

theorem kd_enum_leafstage_quiet_sim (h : KDHeader R) (trav travq : EnumTraverseData σ R)
    (t0 t1 : KDTree R) (hm : travq.maxr2 = trav.maxr2)
    (hp : travq.prune_nodes = trav.prune_nodes)
    (hq : travq.visit_edge = quiet trav.visit_edge)
    (n0 n1 : KDNode R) (dmin dmax : R) (s : EnumState σ R) :
    QuietSim (kd_enum_leafstage h trav t0 t1 n0 n1 dmin dmax s)
      (kd_enum_leafstage h travq t0 t1 n0 n1 dmin dmax s) := by
  unfold kd_enum_leafstage
  rw [hp]
  cases trav.prune_nodes with
  | none =>
    show QuietSim (kd_enum_check h trav t0 t1 n0 n1 s) (kd_enum_check h travq t0 t1 n0 n1 s)
    rw [kd_enum_check_eq, kd_enum_check_eq, hm]
    exact visit_all_quiet_sim trav travq hq _ s
  | some prune =>
    simp only []
    split_ifs
    · exact QuietSim.same _
    · rw [kd_enum_check_eq, kd_enum_check_eq, hm]
      exact visit_all_quiet_sim trav travq hq _ _
    · exact QuietSim.same _

/-- The run of a visitor and the run of its quiet version agree until the visitor answers
a non-zero value. -/
theorem kd_enum_internal_quiet_sim (h : KDHeader R) (trav travq : EnumTraverseData σ R)
    (t0 t1 : KDTree R) (hm : travq.maxr2 = trav.maxr2)
    (hp : travq.prune_nodes = trav.prune_nodes)
    (hq : travq.visit_edge = quiet trav.visit_edge) :
    ∀ (n0 n1 : KDNode R) (s : EnumState σ R),
      QuietSim (kd_enum_internal h trav t0 t1 n0 n1 s)
        (kd_enum_internal h travq t0 t1 n0 n1 s) := by
  have hgrow : ∀ (n0 n1 : KDNode R) (s : EnumState σ R),
      visited s.calls <+: visited (kd_enum_internal h travq t0 t1 n0 n1 s).2.calls := by
    intro n0 n1 s
    obtain ⟨evs, hc, _⟩ := kd_enum_internal_shape h travq t0 t1 n0 n1 s
    rw [hc, visited_append]
    exact List.prefix_append _ _
  have hseq : ∀ (f g fq gq : EnumState σ R → Int × EnumState σ R) (s : EnumState σ R),
      QuietSim (f s) (fq s) → (∀ s', QuietSim (g s') (gq s')) →
      (∀ s', visited s'.calls <+: visited (gq s').2.calls) →
      QuietSim (enum_seq f g s) (enum_seq fq gq s) := by
    intro f g fq gq s h0 h1 hg
    by_cases hrt : (f s).1 = 0
    · have hfq : fq s = f s := h0.1 hrt
      rw [enum_seq_of_eq hrt, enum_seq_of_eq (by rw [hfq]; exact hrt), hfq]
      exact h1 _
    · rw [enum_seq_of_ne hrt]
      refine ⟨fun hz => absurd hz hrt, fun _ => ?_⟩
      by_cases hq0 : (fq s).1 = 0
      · rw [enum_seq_of_eq hq0]
        exact (h0.2 hrt).trans (hg _)
      · rw [enum_seq_of_ne hq0]
        exact h0.2 hrt
  apply kd_enum_step_induction h trav.maxr2 t0
  · intro n0 n1 hs s
    rw [kd_enum_internal_unfold, kd_enum_internal_unfold, hm, hs]
    exact QuietSim.same _
  · intro n0 n1 hs s
    rw [kd_enum_internal_unfold, kd_enum_internal_unfold, hm, hs]
    exact kd_enum_leafstage_quiet_sim h trav travq t0 t1 hm hp hq n0 n1 _ _ s
  · intro n0 n1 d st sz lo hi l0 l1 _ hs ih0 ih1 s
    rw [kd_enum_internal_unfold, kd_enum_internal_unfold, hm, hs]
    exact hseq _ _ _ _ s (ih0 s) ih1 (hgrow _ _)
  · intro n0 n1 d st sz lo hi l0 l1 _ hs ih0 ih1 s
    rw [kd_enum_internal_unfold, kd_enum_internal_unfold, hm, hs]
    exact hseq _ _ _ _ s (ih0 s) ih1 (hgrow _ _)

/-- A run in which the `K`-th invocation of `visit_edge` answers a non-zero value returns
`-1` and makes exactly `K` visits. -/
theorem kd_enum_abort_count (h : KDHeader R) (trav : EnumTraverseData σ R) (t0 t1 : KDTree R)
    (n0 n1 : KDNode R) (u : σ) (K : Nat) (hK : 1 ≤ K) (v : Int) (hv0 : v ≠ 0)
    (hv : (visit_rcs (kd_enum_internal h trav t0 t1 n0 n1
      { userdata := u, calls := [] }).2.calls)[K - 1]? = some v) :
    (kd_enum_internal h trav t0 t1 n0 n1 { userdata := u, calls := [] }).1 = -1 ∧
      (visited (kd_enum_internal h trav t0 t1 n0 n1
        { userdata := u, calls := [] }).2.calls).length = K := by
  obtain ⟨evs, hc, hshape⟩ := kd_enum_internal_shape h trav t0 t1 n0 n1
    { userdata := u, calls := [] }
  rw [List.nil_append] at hc
  rw [hc] at hv ⊢
  rcases hshape with ⟨_, hz⟩ | ⟨hm, pre, e, hev, hpre, he⟩
  · exact absurd (visit_rcs_zero evs hz v (List.getElem?_mem hv)) hv0
  · refine ⟨hm, ?_⟩
    rw [← visit_rcs_length, hev, visit_rcs_append]
    rw [hev, visit_rcs_append] at hv
    have hge : (visit_rcs pre).length ≤ K - 1 := by
      by_contra hlt
      rw [List.getElem?_append_left (not_le.mp hlt)] at hv
      exact hv0 (visit_rcs_zero pre hpre v (List.getElem?_mem hv))
    rw [List.getElem?_append_right hge] at hv
    cases e with
    | prune_nodes p rc o => simp [visit_rcs] at hv
    | visit_edge p rc =>
      simp only [visit_rcs, List.length_append, List.length_singleton]
      have hlt : K - 1 - (visit_rcs pre).length < 1 := by
        by_contra hc'
        rw [List.getElem?_eq_none (by simpa [visit_rcs] using not_lt.mp hc')] at hv
        cases hv
      omega

/-- Claim C4 (abort propagation).  For every pair of trees, radius and `K >= 1`.  The
non-aborting run is the run of the visitor that has the same effect on the userdata and
always answers 0.  (1) With any `prune_nodes`: if the `K`-th invocation of `visit_edge`
in the run of `kd_enum` answers a non-zero value, then `kd_enum` returns a non-zero value
and `visit_edge` is invoked exactly `K` times, on the first `K` visits of the
non-aborting run in the same order.  (2) Without `prune_nodes`: if `visit_edge`, handed
the visits of the non-aborting run in turn, answers 0 on its first `K - 1` calls and a
non-zero value on its `K`-th call (so that run has at least `K` visits), then the same
holds. -/
theorem kd_enum_abort_propagation (h : KDHeader R) (t0 t1 : KDTree R) (n0 n1 : KDNode R)
    (maxr : R) (visit_edge : σ → KDEnumPair R → Int × σ) (u : σ) (K : Nat) (hK : 1 ≤ K) :
    (∀ prune_nodes : Option (σ → KDEnumNodePair R → Int → Int × Int × σ),
      (∃ v, v ≠ 0 ∧
        (visit_rcs (kd_enum h t0 t1 n0 n1 maxr visit_edge prune_nodes u).2.calls)[K - 1]? =
          some v) →
      (kd_enum h t0 t1 n0 n1 maxr visit_edge prune_nodes u).1 ≠ 0 ∧
        (visited (kd_enum h t0 t1 n0 n1 maxr visit_edge prune_nodes u).2.calls).length = K ∧
        visited (kd_enum h t0 t1 n0 n1 maxr visit_edge prune_nodes u).2.calls =
          (visited (kd_enum h t0 t1 n0 n1 maxr (quiet visit_edge) prune_nodes
            u).2.calls).take K) ∧
    ((∀ k, k + 1 < K →
        (replay_rcs visit_edge u
          (visited (kd_enum h t0 t1 n0 n1 maxr (quiet visit_edge) none u).2.calls))[k]? =
            some 0) →
      (∃ v, v ≠ 0 ∧
        (replay_rcs visit_edge u
          (visited (kd_enum h t0 t1 n0 n1 maxr (quiet visit_edge) none u).2.calls))[K - 1]? =
            some v) →
      (kd_enum h t0 t1 n0 n1 maxr visit_edge none u).1 ≠ 0 ∧
        (visited (kd_enum h t0 t1 n0 n1 maxr visit_edge none u).2.calls).length = K ∧
        visited (kd_enum h t0 t1 n0 n1 maxr visit_edge none u).2.calls =
          (visited (kd_enum h t0 t1 n0 n1 maxr (quiet visit_edge) none u).2.calls).take K) := by
  constructor
  · rintro prune_nodes ⟨v, hv0, hv⟩
    obtain ⟨hrt, hlen⟩ := kd_enum_abort_count h (kd_enum_trav maxr visit_edge prune_nodes)
      t0 t1 n0 n1 u K hK v hv0 hv
    have hsim := (kd_enum_internal_quiet_sim h (kd_enum_trav maxr visit_edge prune_nodes)
      (kd_enum_trav maxr (quiet visit_edge) prune_nodes) t0 t1 rfl rfl rfl n0 n1
      { userdata := u, calls := [] }).2 (by rw [hrt]; decide)
    have hne : (kd_enum h t0 t1 n0 n1 maxr visit_edge prune_nodes u).1 ≠ 0 := by
      rw [show (kd_enum h t0 t1 n0 n1 maxr visit_edge prune_nodes u).1 = -1 from hrt]
      decide
    refine ⟨hne, hlen, ?_⟩
    have := List.prefix_iff_eq_take.mp hsim
    rw [hlen] at this
    exact this
  · intro hzero habort
    obtain ⟨L, htrace, _⟩ := kd_enum_internal_trace h (maxr * maxr) t0 t1 n0 n1
    have hq : visited (kd_enum h t0 t1 n0 n1 maxr (quiet visit_edge) none u).2.calls = L := by
      rw [kd_enum_eq, htrace σ (plain_trav maxr (quiet visit_edge)) _ rfl rfl, visit_all_quiet]
      rfl
    rw [hq] at hzero habort ⊢
    have hlen : K ≤ L.length := by
      obtain ⟨v, _, hv⟩ := habort
      have hlt : K - 1 < (replay_rcs visit_edge u L).length := by
        by_contra hc
        rw [List.getElem?_eq_none (not_lt.mp hc)] at hv
        cases hv
      have hl : ∀ (u : σ) (l : List (KDEnumPair R)),
          (replay_rcs visit_edge u l).length = l.length := by
        intro u l
        induction l generalizing u with
        | nil => rfl
        | cons p ps ih => simp [replay_rcs, ih]
      rw [hl] at hlt
      omega
    rw [kd_enum_eq, htrace σ (plain_trav maxr visit_edge) _ rfl rfl]
    obtain ⟨h1, h2⟩ := visit_all_abort_at (plain_trav maxr visit_edge) L K
      { userdata := u, calls := [] } hK hzero habort
    refine ⟨by rw [h1]; decide, ?_, ?_⟩
    · rw [h2]
      simp [visited, hlen]
    · rw [h2]
      rfl

/-- On the one-point tree a visitor that answers 5 on its first call is invoked once; in
the three-point scenario a visitor that answers 5 on its 4th call is invoked 4 times; in
both cases `kd_enum` returns a non-zero value. -/
theorem kd_enum_abort_propagation_witness :
    ((kd_enum plainHeader tree1 tree1 leaf1 leaf1 1 answer5 none ()).1 ≠ 0 ∧
      (visited (kd_enum plainHeader tree1 tree1 leaf1 leaf1 1 answer5 none
        ()).2.calls).length = 1 ∧
      visited (kd_enum plainHeader tree1 tree1 leaf1 leaf1 1 answer5 none ()).2.calls =
        (visited (kd_enum plainHeader tree1 tree1 leaf1 leaf1 1 (quiet answer5) none
          ()).2.calls).take 1) ∧
    ((kd_enum plainHeader tree3 tree3 root3 root3 5 (abort_at 4 5) none 0).1 ≠ 0 ∧
      (visited (kd_enum plainHeader tree3 tree3 root3 root3 5 (abort_at 4 5) none
        0).2.calls).length = 4 ∧
      visited (kd_enum plainHeader tree3 tree3 root3 root3 5 (abort_at 4 5) none 0).2.calls =
        (visited (kd_enum plainHeader tree3 tree3 root3 root3 5 (quiet (abort_at 4 5)) none
          0).2.calls).take 4) :=
  ⟨(kd_enum_abort_propagation plainHeader tree1 tree1 leaf1 leaf1 1 answer5 () 1
      (by decide)).1 none ⟨5, by decide, by rw [kd_enum_leaf1_answer5]; rfl⟩,
    (kd_enum_abort_propagation plainHeader tree3 tree3 root3 root3 5 (abort_at 4 5) 0 4
      (by decide)).2
      (fun k hk => by
        rw [replay_rcs_abort_at 4 5 _ 0 k
          (by rw [visits_length_root3 _ _ (fun _ _ => rfl)]; omega)]
        rw [if_neg (by omega)])
      ⟨5, by decide, by
        rw [replay_rcs_abort_at 4 5 _ 0 (4 - 1)
          (by rw [visits_length_root3 _ _ (fun _ _ => rfl)]; decide)]
        rfl⟩⟩

/-- The branch taken on a pair that is not too far and not fully inside: the side with
more points is opened, slot 0 on a tie, the other side if that one is a leaf, and the
pair goes on to the exact check only if both are leaves. -/
theorem kd_enum_step_policy (h : KDHeader R) (maxr2 : R) (t0 : KDTree R) (n0 n1 : KDNode R)
    (hnear : ¬ (kd_enum_bounds h t0 n0 n1).1 > maxr2 * (100001 / 100000))
    (hmax : (kd_enum_bounds h t0 n0 n1).2 ≥ maxr2) :
    kd_enum_step h maxr2 t0 n0 n1 =
      if n1.size ≤ n0.size then
        match n0, n1 with
        | KDNode.split _ _ _ _ _ l0 l1, _ => EnumStep.open0 l0 l1
        | KDNode.leaf _ _ _ _, KDNode.split _ _ _ _ _ l0 l1 => EnumStep.open1 l0 l1
        | KDNode.leaf _ _ _ _, KDNode.leaf _ _ _ _ => EnumStep.leafstage
      else
        match n1, n0 with
        | KDNode.split _ _ _ _ _ l0 l1, _ => EnumStep.open1 l0 l1
        | KDNode.leaf _ _ _ _, KDNode.split _ _ _ _ _ l0 l1 => EnumStep.open0 l0 l1
        | KDNode.leaf _ _ _ _, KDNode.leaf _ _ _ _ => EnumStep.leafstage := by
  unfold kd_enum_step
  simp only [hnear, hmax, if_true, if_false]
  by_cases hsz : n1.size ≤ n0.size
  · have hlt : ¬ n0.size < n1.size := not_lt.mpr hsz
    simp only [hsz, hlt, if_true, if_false]
    cases n0 <;> cases n1 <;> simp [KDNode.dim]
  · have hlt : n0.size < n1.size := not_le.mp hsz
    simp only [hsz, hlt, if_true, if_false]
    cases n0 <;> cases n1 <;> simp [KDNode.dim]

theorem kd_enum_internal_open0 (h : KDHeader R) (trav : EnumTraverseData σ R) (t0 t1 : KDTree R)
    (n0 n1 : KDNode R) (s : EnumState σ R)
    (hnear : ¬ (kd_enum_bounds h t0 n0 n1).1 > trav.maxr2 * (100001 / 100000))
    (hmax : (kd_enum_bounds h t0 n0 n1).2 ≥ trav.maxr2)
    (d st sz : Nat) (lo hi : Nat → R) (l0 l1 : KDNode R)
    (hn0 : n0 = KDNode.split d st sz lo hi l0 l1) (hside : n1.size ≤ n0.size ∨ n1.dim < 0) :
    kd_enum_internal h trav t0 t1 n0 n1 s =
      enum_seq (kd_enum_internal h trav t0 t1 l0 n1) (kd_enum_internal h trav t0 t1 l1 n1) s := by
  rw [kd_enum_internal_unfold, kd_enum_step_policy h trav.maxr2 t0 n0 n1 hnear hmax]
  subst hn0
  by_cases hsz : n1.size ≤ (KDNode.split d st sz lo hi l0 l1).size
  · simp only [hsz, if_true]
  · simp only [hsz, if_false]
    rcases hside with hle | hleaf
    · exact absurd hle hsz
    · cases n1 with
      | leaf _ _ _ _ => rfl
      | split d1 _ _ _ _ _ _ =>
        simp only [KDNode.dim] at hleaf
        omega

theorem kd_enum_internal_open1 (h : KDHeader R) (trav : EnumTraverseData σ R) (t0 t1 : KDTree R)
    (n0 n1 : KDNode R) (s : EnumState σ R)
    (hnear : ¬ (kd_enum_bounds h t0 n0 n1).1 > trav.maxr2 * (100001 / 100000))
    (hmax : (kd_enum_bounds h t0 n0 n1).2 ≥ trav.maxr2)
    (d st sz : Nat) (lo hi : Nat → R) (l0 l1 : KDNode R)
    (hn1 : n1 = KDNode.split d st sz lo hi l0 l1) (hside : n0.size < n1.size ∨ n0.dim < 0) :
    kd_enum_internal h trav t0 t1 n0 n1 s =
      enum_seq (kd_enum_internal h trav t0 t1 n0 l0) (kd_enum_internal h trav t0 t1 n0 l1) s := by
  rw [kd_enum_internal_unfold, kd_enum_step_policy h trav.maxr2 t0 n0 n1 hnear hmax]
  subst hn1
  by_cases hsz : (KDNode.split d st sz lo hi l0 l1).size ≤ n0.size
  · simp only [hsz, if_true]
    rcases hside with hlt | hleaf
    · exact absurd hsz (not_le.mpr hlt)
    · cases n0 with
      | leaf _ _ _ _ => rfl
      | split d0 _ _ _ _ _ _ =>
        simp only [KDNode.dim] at hleaf
        omega
  · simp only [hsz, if_false]

/-- Claim C12 (split-side choice).  On a node pair that is not pruned and has
`distmax >= maxr2`: (1) slot 0 is split when it is a split node and has at least as many
points as slot 1 (strictly more, or a tie) or slot 1 is a leaf; (2) slot 1 is split when
it is a split node and has strictly more points than slot 0 or slot 0 is a leaf; in both
cases only that slot is replaced, by its `link[0]` first and then by its `link[1]`, a
non-zero return of the first ending the call; (3) if both are leaves the pair falls
through to the `prune_nodes` question and the exact check. -/
theorem kd_enum_split_side (h : KDHeader R) (trav : EnumTraverseData σ R) (t0 t1 : KDTree R)
    (n0 n1 : KDNode R) (s : EnumState σ R)
    (hnear : ¬ (kd_enum_bounds h t0 n0 n1).1 > trav.maxr2 * (100001 / 100000))
    (hmax : (kd_enum_bounds h t0 n0 n1).2 ≥ trav.maxr2) :
    (∀ d st sz lo hi l0 l1, n0 = KDNode.split d st sz lo hi l0 l1 →
      (n1.size ≤ n0.size ∨ n1.dim < 0) →
      kd_enum_internal h trav t0 t1 n0 n1 s =
        enum_seq (kd_enum_internal h trav t0 t1 l0 n1)
          (kd_enum_internal h trav t0 t1 l1 n1) s) ∧
    (∀ d st sz lo hi l0 l1, n1 = KDNode.split d st sz lo hi l0 l1 →
      (n0.size < n1.size ∨ n0.dim < 0) →
      kd_enum_internal h trav t0 t1 n0 n1 s =
        enum_seq (kd_enum_internal h trav t0 t1 n0 l0)
          (kd_enum_internal h trav t0 t1 n0 l1) s) ∧
    (n0.dim < 0 → n1.dim < 0 →
      kd_enum_internal h trav t0 t1 n0 n1 s =
        kd_enum_leafstage h trav t0 t1 n0 n1 (kd_enum_bounds h t0 n0 n1).1
          (kd_enum_bounds h t0 n0 n1).2 s) := by
  refine ⟨?_, ?_, ?_⟩
  · intro d st sz lo hi l0 l1 hn0 hside
    exact kd_enum_internal_open0 h trav t0 t1 n0 n1 s hnear hmax d st sz lo hi l0 l1 hn0 hside
  · intro d st sz lo hi l0 l1 hn1 hside
    exact kd_enum_internal_open1 h trav t0 t1 n0 n1 s hnear hmax d st sz lo hi l0 l1 hn1 hside
  · intro hd0 hd1
    rw [kd_enum_internal_unfold, kd_enum_step_leafstage hnear (Or.inr ⟨hd0, hd1⟩)]

theorem kd_enum_bounds_root3_pair3 :
    kd_enum_bounds plainHeader tree3 root3 pair3 = (0, 25) := by
  norm_num [kd_enum_bounds, tree3, root3, pair3, plainHeader, KDNode.kd_node_min,
    KDNode.kd_node_max, List.range, List.range.loop, vec2]

theorem kd_enum_near_root3_pair3 {τ : Type} (visit_edge : τ → KDEnumPair ℚ → Int × τ) :
    ¬ (kd_enum_bounds plainHeader tree3 root3 pair3).1 >
        (plain_trav 5 visit_edge).maxr2 * (100001 / 100000) ∧
      (kd_enum_bounds plainHeader tree3 root3 pair3).2 ≥ (plain_trav 5 visit_edge).maxr2 := by
  rw [kd_enum_bounds_root3_pair3]
  norm_num [plain_trav, kd_enum_trav]

/-- The three points against two of them with radius 5: slot 0 has more points and is
the one that is split. -/
theorem kd_enum_split_side_witness :
    kd_enum_internal plainHeader (plain_trav 5 collect_edge) tree3 tree3 root3 pair3
        { userdata := [], calls := [] } =
      enum_seq
        (kd_enum_internal plainHeader (plain_trav 5 collect_edge) tree3 tree3
          (KDNode.leaf 0 2 (vec2 0 0) (vec2 0 4)) pair3)
        (kd_enum_internal plainHeader (plain_trav 5 collect_edge) tree3 tree3
          (KDNode.leaf 2 1 (vec2 3 0) (vec2 3 0)) pair3)
        { userdata := [], calls := [] } :=
  (kd_enum_split_side plainHeader (plain_trav 5 collect_edge) tree3 tree3 root3 pair3
    { userdata := [], calls := [] } (kd_enum_near_root3_pair3 collect_edge).1
    (kd_enum_near_root3_pair3 collect_edge).2).1 0 0 3 (vec2 0 0) (vec2 3 4) _ _ rfl
    (Or.inl (by decide))

/-- Against claim C13: on the three points against two of them with radius 5 the pair is
neither pruned nor fully inside, slot 1 has fewer points and is a split node, and the
side that is split is slot 0, the one with more points. -/
theorem kd_enum_splits_side_with_more_points :
    pair3.size < root3.size ∧ pair3.dim ≥ 0 ∧
      ¬ (kd_enum_bounds plainHeader tree3 root3 pair3).1 > 5 * 5 * (100001 / 100000) ∧
      (kd_enum_bounds plainHeader tree3 root3 pair3).2 ≥ 5 * 5 ∧
      kd_enum_step plainHeader (5 * 5) tree3 root3 pair3 =
        EnumStep.open0 (KDNode.leaf 0 2 (vec2 0 0) (vec2 0 4))
          (KDNode.leaf 2 1 (vec2 3 0) (vec2 3 0)) ∧
      ¬ ∃ l0 l1, kd_enum_step plainHeader (5 * 5) tree3 root3 pair3 = EnumStep.open1 l0 l1 := by
  have hnear : ¬ (kd_enum_bounds plainHeader tree3 root3 pair3).1 > 5 * 5 * (100001 / 100000) := by
    rw [kd_enum_bounds_root3_pair3]
    norm_num
  have hmax : (kd_enum_bounds plainHeader tree3 root3 pair3).2 ≥ 5 * 5 := by
    rw [kd_enum_bounds_root3_pair3]
    norm_num
  have hstep : kd_enum_step plainHeader (5 * 5) tree3 root3 pair3 =
      EnumStep.open0 (KDNode.leaf 0 2 (vec2 0 0) (vec2 0 4))
        (KDNode.leaf 2 1 (vec2 3 0) (vec2 3 0)) := by
    rw [kd_enum_step_policy plainHeader (5 * 5) tree3 root3 pair3 hnear hmax]
    rfl
  refine ⟨by decide, by decide, hnear, hmax, hstep, ?_⟩
  rintro ⟨l0, l1, h1⟩
  rw [hstep] at h1
  cases h1

/-- Claim C13 as amended: on a node pair that is not pruned and has `distmax >= maxr2`,
`kd_enum_internal` splits the side with more points, slot 0 when the sizes are equal,
and falls back to the other side if that side is a leaf. -/
theorem kd_enum_opens_larger_side (h : KDHeader R) (trav : EnumTraverseData σ R)
    (t0 t1 : KDTree R) (n0 n1 : KDNode R) (s : EnumState σ R)
    (hnear : ¬ (kd_enum_bounds h t0 n0 n1).1 > trav.maxr2 * (100001 / 100000))
    (hmax : (kd_enum_bounds h t0 n0 n1).2 ≥ trav.maxr2) :
    (∀ d st sz lo hi l0 l1, n0 = KDNode.split d st sz lo hi l0 l1 → n1.size ≤ n0.size →
      kd_enum_internal h trav t0 t1 n0 n1 s =
        enum_seq (kd_enum_internal h trav t0 t1 l0 n1)
          (kd_enum_internal h trav t0 t1 l1 n1) s) ∧
    (∀ d st sz lo hi l0 l1, n1 = KDNode.split d st sz lo hi l0 l1 → n0.size < n1.size →
      kd_enum_internal h trav t0 t1 n0 n1 s =
        enum_seq (kd_enum_internal h trav t0 t1 n0 l0)
          (kd_enum_internal h trav t0 t1 n0 l1) s) ∧
    (∀ d st sz lo hi l0 l1, n0 = KDNode.split d st sz lo hi l0 l1 → n1.dim < 0 →
      kd_enum_internal h trav t0 t1 n0 n1 s =
        enum_seq (kd_enum_internal h trav t0 t1 l0 n1)
          (kd_enum_internal h trav t0 t1 l1 n1) s) ∧
    (∀ d st sz lo hi l0 l1, n1 = KDNode.split d st sz lo hi l0 l1 → n0.dim < 0 →
      kd_enum_internal h trav t0 t1 n0 n1 s =
        enum_seq (kd_enum_internal h trav t0 t1 n0 l0)
          (kd_enum_internal h trav t0 t1 n0 l1) s) := by
  refine ⟨?_, ?_, ?_, ?_⟩
  · intro d st sz lo hi l0 l1 hn0 hsz
    exact kd_enum_internal_open0 h trav t0 t1 n0 n1 s hnear hmax d st sz lo hi l0 l1 hn0
      (Or.inl hsz)
  · intro d st sz lo hi l0 l1 hn1 hsz
    exact kd_enum_internal_open1 h trav t0 t1 n0 n1 s hnear hmax d st sz lo hi l0 l1 hn1
      (Or.inl hsz)
  · intro d st sz lo hi l0 l1 hn0 hleaf
    exact kd_enum_internal_open0 h trav t0 t1 n0 n1 s hnear hmax d st sz lo hi l0 l1 hn0
      (Or.inr hleaf)
  · intro d st sz lo hi l0 l1 hn1 hleaf
    exact kd_enum_internal_open1 h trav t0 t1 n0 n1 s hnear hmax d st sz lo hi l0 l1 hn1
      (Or.inr hleaf)

/-- The three points against two of them with radius 5: slot 0, the side with more
points, is split. -/
theorem kd_enum_opens_larger_side_witness :
    kd_enum_internal plainHeader (plain_trav 5 collect_edge) tree3 tree3 root3 pair3
        { userdata := [], calls := [] } =
      enum_seq
        (kd_enum_internal plainHeader (plain_trav 5 collect_edge) tree3 tree3
          (KDNode.leaf 0 2 (vec2 0 0) (vec2 0 4)) pair3)
        (kd_enum_internal plainHeader (plain_trav 5 collect_edge) tree3 tree3
          (KDNode.leaf 2 1 (vec2 3 0) (vec2 3 0)) pair3)
        { userdata := [], calls := [] } :=
  (kd_enum_opens_larger_side plainHeader (plain_trav 5 collect_edge) tree3 tree3 root3 pair3
    { userdata := [], calls := [] } (kd_enum_near_root3_pair3 collect_edge).1
    (kd_enum_near_root3_pair3 collect_edge).2).1 0 0 3 (vec2 0 0) (vec2 3 4) _ _ rfl
    (by decide)

omit [LinearOrderedField R] in
theorem visit_all_events (trav : EnumTraverseData σ R) (L : List (KDEnumPair R)) :
    ∀ s : EnumState σ R, ∃ evs, (visit_all trav L s).2.calls = s.calls ++ evs ∧
      ∀ e ∈ evs, IsVisitOf L e := by
  induction L with
  | nil => intro s; exact ⟨[], by simp [visit_all], by simp⟩
  | cons p ps ih =>
    intro s
    simp only [visit_all]
    split_ifs with hrc
    · refine ⟨[EnumCall.visit_edge p (trav.visit_edge s.userdata p).1], rfl, ?_⟩
      intro e he
      rw [List.mem_singleton] at he
      subst he
      exact List.mem_cons_self _ _
    · obtain ⟨evs, hc, hq⟩ := ih
        { userdata := (trav.visit_edge s.userdata p).2,
          calls := s.calls ++ [EnumCall.visit_edge p (trav.visit_edge s.userdata p).1] }
      refine ⟨EnumCall.visit_edge p (trav.visit_edge s.userdata p).1 :: evs,
        by rw [hc]; simp, ?_⟩
      intro e he
      rcases List.mem_cons.mp he with rfl | he
      · exact List.mem_cons_self _ _
      · have := hq e he
        cases e with
        | visit_edge q rc => exact List.mem_cons_of_mem _ this
        | prune_nodes q rc o => exact this

/-- The invocations of lines 93-111 on a node pair: the `prune_nodes` question first, if
there is a `prune_nodes`, then only `visit_edge` calls on pairs of points of the node
pair within the radius. -/
theorem kd_enum_leafstage_events (h : KDHeader R) (trav : EnumTraverseData σ R)
    (t0 t1 : KDTree R) (n0 n1 : KDNode R) (dmin dmax : R) (s : EnumState σ R) :
    (trav.prune_nodes = none →
      ∃ visits, (kd_enum_leafstage h trav t0 t1 n0 n1 dmin dmax s).2.calls =
          s.calls ++ visits ∧
        ∀ e ∈ visits, IsVisitOf (brute_pairs h trav.maxr2 t0 t1 n0 n1) e) ∧
    (∀ prune, trav.prune_nodes = some prune →
      ∃ rc op visits, (kd_enum_leafstage h trav t0 t1 n0 n1 dmin dmax s).2.calls =
          s.calls ++ EnumCall.prune_nodes
            { nodes0 := n0, nodes1 := n1, distmin2 := dmin, distmax2 := dmax } rc op ::
            visits ∧
        ∀ e ∈ visits, IsVisitOf (brute_pairs h trav.maxr2 t0 t1 n0 n1) e) := by
  constructor
  · intro hp
    simp only [kd_enum_leafstage, hp]
    rw [kd_enum_check_eq]
    exact visit_all_events trav _ s
  · intro prune hp
    simp only [kd_enum_leafstage, hp]
    generalize prune s.userdata
      { nodes0 := n0, nodes1 := n1, distmin2 := dmin, distmax2 := dmax } 1 = out
    obtain ⟨rc, op, u1⟩ := out
    simp only []
    refine ⟨rc, op, ?_⟩
    split_ifs with hrc hop
    · exact ⟨[], rfl, by simp⟩
    · rw [kd_enum_check_eq]
      obtain ⟨evs, hc, hq⟩ := visit_all_events trav (brute_pairs h trav.maxr2 t0 t1 n0 n1)
        { userdata := u1,
          calls := s.calls ++ [EnumCall.prune_nodes
            { nodes0 := n0, nodes1 := n1, distmin2 := dmin, distmax2 := dmax } rc op] }
      exact ⟨evs, by rw [hc]; simp, hq⟩
    · exact ⟨[], rfl, by simp⟩

/-- A property of the invocations of lines 93-111 on the node pairs of the recursion is
a property of all invocations of a run. -/
theorem kd_enum_internal_events (h : KDHeader R) (trav : EnumTraverseData σ R)
    (t0 t1 : KDTree R) (Inv : KDNode R → KDNode R → Prop) (Q : EnumCall R → Prop)
    (hchild0 : ∀ d st sz lo hi l0 l1 n1, Inv (KDNode.split d st sz lo hi l0 l1) n1 →
      Inv l0 n1 ∧ Inv l1 n1)
    (hchild1 : ∀ d st sz lo hi l0 l1 n0, Inv n0 (KDNode.split d st sz lo hi l0 l1) →
      Inv n0 l0 ∧ Inv n0 l1)
    (hleaf : ∀ n0 n1 s, Inv n0 n1 →
      kd_enum_step h trav.maxr2 t0 n0 n1 = EnumStep.leafstage →
      ∃ evs, (kd_enum_leafstage h trav t0 t1 n0 n1 (kd_enum_bounds h t0 n0 n1).1
          (kd_enum_bounds h t0 n0 n1).2 s).2.calls = s.calls ++ evs ∧ ∀ e ∈ evs, Q e) :
    ∀ n0 n1, Inv n0 n1 → ∀ s : EnumState σ R,
      ∃ evs, (kd_enum_internal h trav t0 t1 n0 n1 s).2.calls = s.calls ++ evs ∧
        ∀ e ∈ evs, Q e := by
  have hseq : ∀ (f g : EnumState σ R → Int × EnumState σ R) (s : EnumState σ R),
      (∀ s, ∃ evs, (f s).2.calls = s.calls ++ evs ∧ ∀ e ∈ evs, Q e) →
      (∀ s, ∃ evs, (g s).2.calls = s.calls ++ evs ∧ ∀ e ∈ evs, Q e) →
      ∃ evs, (enum_seq f g s).2.calls = s.calls ++ evs ∧ ∀ e ∈ evs, Q e := by
    intro f g s hf hg
    by_cases hrt : (f s).1 = 0
    · rw [enum_seq_of_eq hrt]
      obtain ⟨e0, hc0, hq0⟩ := hf s
      obtain ⟨e1, hc1, hq1⟩ := hg (f s).2
      refine ⟨e0 ++ e1, by rw [hc1, hc0, List.append_assoc], fun e he => ?_⟩
      rcases List.mem_append.mp he with hh | hh
      · exact hq0 e hh
      · exact hq1 e hh
    · rw [enum_seq_of_ne hrt]
      exact hf s
  apply kd_enum_step_induction h trav.maxr2 t0
  · intro n0 n1 hs _ s
    rw [kd_enum_internal_unfold, hs]
    exact ⟨[], by simp, by simp⟩
  · intro n0 n1 hs hinv s
    rw [kd_enum_internal_unfold, hs]
    exact hleaf n0 n1 s hinv hs
  · intro n0 n1 d st sz lo hi l0 l1 hn0 hs ih0 ih1 hinv s
    rw [kd_enum_internal_unfold, hs]
    subst hn0
    exact hseq _ _ s (ih0 (hchild0 _ _ _ _ _ _ _ _ hinv).1) (ih1 (hchild0 _ _ _ _ _ _ _ _ hinv).2)
  · intro n0 n1 d st sz lo hi l0 l1 hn1 hs ih0 ih1 hinv s
    rw [kd_enum_internal_unfold, hs]
    subst hn1
    exact hseq _ _ s (ih0 (hchild1 _ _ _ _ _ _ _ _ hinv).1) (ih1 (hchild1 _ _ _ _ _ _ _ _ hinv).2)

theorem kd_enum_step_leafstage_cases {h : KDHeader R} {maxr2 : R} {t0 : KDTree R}
    {n0 n1 : KDNode R} (hs : kd_enum_step h maxr2 t0 n0 n1 = EnumStep.leafstage) :
    (kd_enum_bounds h t0 n0 n1).1 ≤ maxr2 * (100001 / 100000) ∧
      ((kd_enum_bounds h t0 n0 n1).2 < maxr2 ∨ (n0.dim < 0 ∧ n1.dim < 0)) := by
  by_cases hfar : (kd_enum_bounds h t0 n0 n1).1 > maxr2 * (100001 / 100000)
  · unfold kd_enum_step at hs
    simp only [hfar, if_true] at hs
    cases hs
  · refine ⟨not_lt.mp hfar, ?_⟩
    by_cases hmax : (kd_enum_bounds h t0 n0 n1).2 ≥ maxr2
    · right
      rw [kd_enum_step_policy h maxr2 t0 n0 n1 hfar hmax] at hs
      cases n0 <;> cases n1 <;> split_ifs at hs <;>
        exact ⟨by simp [KDNode.dim], by simp [KDNode.dim]⟩
    · exact Or.inl (not_le.mp hmax)

/-- Claim C15 (when `prune_nodes` is consulted).  (1) In every run of `kd_enum`, every
invocation of `prune_nodes` receives a node pair with the two bounds `kd_enum_bounds`
computes for exactly that pair, with `distmin2 <= 1.00001 * maxr^2` and either
`distmax2 < maxr^2` or both nodes leaves.  (2) Every recursive call of `kd_enum_internal`
either returns at once, or only makes its two nested calls on the children of one slot,
or invokes `prune_nodes` at most once, on its own node pair, and after that only
`visit_edge` on pairs of points of that node pair. -/
theorem kd_enum_prune_consulted (h : KDHeader R) (t0 t1 : KDTree R) (n0 n1 : KDNode R)
    (maxr : R) (visit_edge : σ → KDEnumPair R → Int × σ)
    (prune_nodes : Option (σ → KDEnumNodePair R → Int → Int × Int × σ)) (u : σ) :
    (∀ e ∈ (kd_enum h t0 t1 n0 n1 maxr visit_edge prune_nodes u).2.calls,
      PruneCallOk h (maxr * maxr) t0 e) ∧
    (∀ (m0 m1 : KDNode R) (s : EnumState σ R),
      kd_enum_internal h (kd_enum_trav maxr visit_edge prune_nodes) t0 t1 m0 m1 s = (0, s) ∨
      (∃ d st sz lo hi l0 l1, m0 = KDNode.split d st sz lo hi l0 l1 ∧
        kd_enum_internal h (kd_enum_trav maxr visit_edge prune_nodes) t0 t1 m0 m1 s =
          enum_seq (kd_enum_internal h (kd_enum_trav maxr visit_edge prune_nodes) t0 t1 l0 m1)
            (kd_enum_internal h (kd_enum_trav maxr visit_edge prune_nodes) t0 t1 l1 m1) s) ∨
      (∃ d st sz lo hi l0 l1, m1 = KDNode.split d st sz lo hi l0 l1 ∧
        kd_enum_internal h (kd_enum_trav maxr visit_edge prune_nodes) t0 t1 m0 m1 s =
          enum_seq (kd_enum_internal h (kd_enum_trav maxr visit_edge prune_nodes) t0 t1 m0 l0)
            (kd_enum_internal h (kd_enum_trav maxr visit_edge prune_nodes) t0 t1 m0 l1) s) ∨
      (∃ asked visits,
        (kd_enum_internal h (kd_enum_trav maxr visit_edge prune_nodes) t0 t1 m0 m1
          s).2.calls = s.calls ++ asked ++ visits ∧
        asked.length ≤ 1 ∧
        (∀ e ∈ asked, ∃ rc op, e = EnumCall.prune_nodes
          { nodes0 := m0, nodes1 := m1, distmin2 := (kd_enum_bounds h t0 m0 m1).1,
            distmax2 := (kd_enum_bounds h t0 m0 m1).2 } rc op) ∧
        (∀ e ∈ visits, IsVisitOf (brute_pairs h (maxr * maxr) t0 t1 m0 m1) e))) := by
  constructor
  · obtain ⟨evs, hc, hq⟩ := kd_enum_internal_events h
      (kd_enum_trav maxr visit_edge prune_nodes) t0 t1 (fun _ _ => True)
      (PruneCallOk h (maxr * maxr) t0)
      (fun _ _ _ _ _ _ _ _ _ => ⟨trivial, trivial⟩)
      (fun _ _ _ _ _ _ _ _ _ => ⟨trivial, trivial⟩)
      (fun m0 m1 s _ hs => by
        obtain ⟨hnear, hstop⟩ := kd_enum_step_leafstage_cases hs
        obtain ⟨hnone, hsome⟩ := kd_enum_leafstage_events h
          (kd_enum_trav maxr visit_edge prune_nodes) t0 t1 m0 m1
          (kd_enum_bounds h t0 m0 m1).1 (kd_enum_bounds h t0 m0 m1).2 s
        have hvis : ∀ (L : List (KDEnumPair R)) (e : EnumCall R), IsVisitOf L e →
            PruneCallOk h (maxr * maxr) t0 e := by
          intro L e he
          cases e with
          | visit_edge p rc => trivial
          | prune_nodes p rc o => exact absurd he (by simp [IsVisitOf])
        cases prune_nodes with
        | none =>
          obtain ⟨visits, hc, hv⟩ := hnone rfl
          exact ⟨visits, hc, fun e he => hvis _ e (hv e he)⟩
        | some prune =>
          obtain ⟨rc, op, visits, hc, hv⟩ := hsome prune rfl
          refine ⟨_, hc, fun e he => ?_⟩
          rcases List.mem_cons.mp he with rfl | he
          · exact ⟨rfl, rfl, hnear, hstop⟩
          · exact hvis _ e (hv e he))
      n0 n1 trivial { userdata := u, calls := [] }
    intro e he
    have hc' : (kd_enum h t0 t1 n0 n1 maxr visit_edge prune_nodes u).2.calls = [] ++ evs := hc
    rw [hc', List.nil_append] at he
    exact hq e he
  · intro m0 m1 s
    rw [kd_enum_internal_unfold]
    cases hs : kd_enum_step h (kd_enum_trav maxr visit_edge prune_nodes).maxr2 t0 m0 m1 with
    | far => exact Or.inl rfl
    | open0 l0 l1 =>
      obtain ⟨d, st, sz, lo, hi, hm0⟩ := kd_enum_step_open0 hs
      exact Or.inr (Or.inl ⟨d, st, sz, lo, hi, l0, l1, hm0, rfl⟩)
    | open1 l0 l1 =>
      obtain ⟨d, st, sz, lo, hi, hm1⟩ := kd_enum_step_open1 hs
      exact Or.inr (Or.inr (Or.inl ⟨d, st, sz, lo, hi, l0, l1, hm1, rfl⟩))
    | leafstage =>
      refine Or.inr (Or.inr (Or.inr ?_))
      obtain ⟨hnone, hsome⟩ := kd_enum_leafstage_events h
        (kd_enum_trav maxr visit_edge prune_nodes) t0 t1 m0 m1
        (kd_enum_bounds h t0 m0 m1).1 (kd_enum_bounds h t0 m0 m1).2 s
      cases prune_nodes with
      | none =>
        obtain ⟨visits, hc, hv⟩ := hnone rfl
        exact ⟨[], visits, by simpa using hc, by simp, by simp, hv⟩
      | some prune =>
        obtain ⟨rc, op, visits, hc, hv⟩ := hsome prune rfl
        refine ⟨[_], visits, by simpa using hc, by simp, ?_, hv⟩
        intro e he
        rw [List.mem_singleton] at he
        exact ⟨rc, op, he⟩

/-- The run on the one-point tree against itself with radius 1, the visitor that answers 0
and `always_open`: one `prune_nodes` call on the pair of leaves, then one visit. -/
theorem kd_enum_leaf1_always_open :
    kd_enum plainHeader tree1 tree1 leaf1 leaf1 1 answer0 (some always_open) () =
      (0, { userdata := (),
            calls := [EnumCall.prune_nodes
                        { nodes0 := leaf1, nodes1 := leaf1, distmin2 := 0, distmax2 := 0 } 0 1,
                      EnumCall.visit_edge ({ i := 0, j := 0, r := 0 } : KDEnumPair ℚ) 0] }) := by
  show kd_enum_internal plainHeader (kd_enum_trav (1 : ℚ) answer0 (some always_open)) tree1
    tree1 leaf1 leaf1 { userdata := (), calls := [] } = _
  rw [kd_enum_internal_unfold]
  have hs : kd_enum_step plainHeader (kd_enum_trav (1 : ℚ) answer0 (some always_open)).maxr2
      tree1 leaf1 leaf1 = EnumStep.leafstage :=
    kd_enum_step_leaf1 _ (by norm_num [kd_enum_trav])
  have hb : kd_enum_bounds plainHeader tree1 leaf1 leaf1 = (0, 0) := by
    simp [kd_enum_bounds, tree1, leaf1, plainHeader, KDNode.kd_node_min, KDNode.kd_node_max,
      List.range, List.range.loop]
  rw [hs, hb]
  simp only [kd_enum_leafstage, kd_enum_trav, always_open]
  rw [kd_enum_check_eq, brute_pairs_leaf1 _ (by norm_num)]
  simp [visit_all, answer0]

/-- On the one-point tree against itself with radius 1 and `always_open`, the one
`prune_nodes` call gets the pair of leaves with both bounds 0. -/
theorem kd_enum_prune_consulted_witness :
    PruneCallOk plainHeader (1 * 1) tree1
      (EnumCall.prune_nodes
        { nodes0 := leaf1, nodes1 := leaf1, distmin2 := 0, distmax2 := 0 } 0 1) :=
  (kd_enum_prune_consulted plainHeader tree1 tree1 leaf1 leaf1 1 answer0 (some always_open)
    ()).1 _ (by rw [kd_enum_leaf1_always_open]; exact List.mem_cons_self _ _)

theorem kd_enum_internal_fuel_succ (h : KDHeader R) (trav : EnumTraverseData σ R)
    (t0 t1 : KDTree R) (fuel : Nat) (n0 n1 : KDNode R) (s : EnumState σ R) :
    kd_enum_internal_fuel h trav t0 t1 (fuel + 1) (n0, n1) s =
      match kd_enum_step h trav.maxr2 t0 n0 n1 with
      | EnumStep.far => some (0, s, (n0, n1))
      | EnumStep.open0 l0 l1 =>
        match kd_enum_internal_fuel h trav t0 t1 fuel (l0, n1) s with
        | none => none
        | some (rt, s1, nodes1) =>
          if rt ≠ 0 then some (rt, s1, (n0, nodes1.2))
          else
            match kd_enum_internal_fuel h trav t0 t1 fuel (l1, nodes1.2) s1 with
            | none => none
            | some (rt, s2, nodes2) => some (rt, s2, (n0, nodes2.2))
      | EnumStep.open1 l0 l1 =>
        match kd_enum_internal_fuel h trav t0 t1 fuel (n0, l0) s with
        | none => none
        | some (rt, s1, nodes1) =>
          if rt ≠ 0 then some (rt, s1, (nodes1.1, n1))
          else
            match kd_enum_internal_fuel h trav t0 t1 fuel (nodes1.1, l1) s1 with
            | none => none
            | some (rt, s2, nodes2) => some (rt, s2, (nodes2.1, n1))
      | EnumStep.leafstage =>
        some ((kd_enum_leafstage h trav t0 t1 n0 n1 (kd_enum_bounds h t0 n0 n1).1
            (kd_enum_bounds h t0 n0 n1).2 s).1,
          (kd_enum_leafstage h trav t0 t1 n0 n1 (kd_enum_bounds h t0 n0 n1).1
            (kd_enum_bounds h t0 n0 n1).2 s).2, (n0, n1)) := by
  rw [kd_enum_internal_fuel]
  unfold kd_enum_step
  simp only [nodes_get, nodes_set, if_true, one_ne_zero, if_false]
  by_cases h1 : (kd_enum_bounds h t0 n0 n1).1 > trav.maxr2 * (100001 / 100000)
  · simp only [h1, if_true]
  · by_cases h2 : (kd_enum_bounds h t0 n0 n1).2 ≥ trav.maxr2
    · simp only [h1, h2, if_true, if_false]
      by_cases hsz : n0.size < n1.size
      · simp only [hsz, if_true, one_ne_zero, if_false]
        cases n0 <;> cases n1 <;> simp [KDNode.dim, nodes_get, nodes_set]
      · simp only [hsz, if_true, one_ne_zero, if_false]
        cases n0 <;> cases n1 <;> simp [KDNode.dim, nodes_get, nodes_set]
    · simp only [h1, h2, if_false]

theorem kd_enum_internal_fuel_restores (h : KDHeader R) (trav : EnumTraverseData σ R)
    (t0 t1 : KDTree R) :
    ∀ (fuel : Nat) (n0 n1 : KDNode R) (s : EnumState σ R)
      (r : Int × EnumState σ R × (KDNode R × KDNode R)),
      kd_enum_internal_fuel h trav t0 t1 fuel (n0, n1) s = some r → r.2.2 = (n0, n1) := by
  intro fuel
  induction fuel with
  | zero => intro n0 n1 s r hr; simp [kd_enum_internal_fuel] at hr
  | succ fuel ih =>
    intro n0 n1 s r hr
    rw [kd_enum_internal_fuel_succ] at hr
    cases hs : kd_enum_step h trav.maxr2 t0 n0 n1 with
    | far => rw [hs] at hr; cases hr; rfl
    | leafstage => rw [hs] at hr; cases hr; rfl
    | open0 l0 l1 =>
      rw [hs] at hr
      simp only at hr
      cases ha : kd_enum_internal_fuel h trav t0 t1 fuel (l0, n1) s with
      | none => rw [ha] at hr; cases hr
      | some ra =>
        obtain ⟨rt, s1, nodes1⟩ := ra
        have e1 : nodes1 = (l0, n1) := ih l0 n1 s _ ha
        subst e1
        rw [ha] at hr
        simp only at hr
        by_cases hrt : rt ≠ 0
        · rw [if_pos hrt] at hr
          cases hr; rfl
        · rw [if_neg hrt] at hr
          cases hb : kd_enum_internal_fuel h trav t0 t1 fuel (l1, n1) s1 with
          | none => rw [hb] at hr; cases hr
          | some rb =>
            obtain ⟨rt2, s2, nodes2⟩ := rb
            have e2 : nodes2 = (l1, n1) := ih l1 n1 s1 _ hb
            subst e2
            rw [hb] at hr
            cases hr; rfl
    | open1 l0 l1 =>
      rw [hs] at hr
      simp only at hr
      cases ha : kd_enum_internal_fuel h trav t0 t1 fuel (n0, l0) s with
      | none => rw [ha] at hr; cases hr
      | some ra =>
        obtain ⟨rt, s1, nodes1⟩ := ra
        have e1 : nodes1 = (n0, l0) := ih n0 l0 s _ ha
        subst e1
        rw [ha] at hr
        simp only at hr
        by_cases hrt : rt ≠ 0
        · rw [if_pos hrt] at hr
          cases hr; rfl
        · rw [if_neg hrt] at hr
          cases hb : kd_enum_internal_fuel h trav t0 t1 fuel (n0, l1) s1 with
          | none => rw [hb] at hr; cases hr
          | some rb =>
            obtain ⟨rt2, s2, nodes2⟩ := rb
            have e2 : nodes2 = (n0, l1) := ih n0 l1 s1 _ hb
            subst e2
            rw [hb] at hr
            cases hr; rfl

theorem kd_enum_internal_fuel_eq (h : KDHeader R) (trav : EnumTraverseData σ R)
    (t0 t1 : KDTree R) :
    ∀ (fuel : Nat) (n0 n1 : KDNode R) (s : EnumState σ R),
      n0.height + n1.height < fuel →
      kd_enum_internal_fuel h trav t0 t1 fuel (n0, n1) s =
        some ((kd_enum_internal h trav t0 t1 n0 n1 s).1,
          (kd_enum_internal h trav t0 t1 n0 n1 s).2, (n0, n1)) := by
  intro fuel
  induction fuel with
  | zero => intro n0 n1 s hf; omega
  | succ fuel ih =>
    intro n0 n1 s hf
    rw [kd_enum_internal_fuel_succ, kd_enum_internal_unfold]
    cases hs : kd_enum_step h trav.maxr2 t0 n0 n1 with
    | far => rfl
    | leafstage => rfl
    | open0 l0 l1 =>
      obtain ⟨d, st, sz, lo, hi, rfl⟩ := kd_enum_step_open0 hs
      have hh : (KDNode.split d st sz lo hi l0 l1).height = max l0.height l1.height + 1 := rfl
      have hl0 : l0.height + n1.height < fuel := by
        have := le_max_left l0.height l1.height
        omega
      have hl1 : l1.height + n1.height < fuel := by
        have := le_max_right l0.height l1.height
        omega
      simp only [ih l0 n1 s hl0, enum_seq]
      by_cases hrt : (kd_enum_internal h trav t0 t1 l0 n1 s).1 ≠ 0
      · rw [if_pos hrt, if_pos hrt]
      · rw [if_neg hrt, if_neg hrt]
        simp only [ih l1 n1 _ hl1]
    | open1 l0 l1 =>
      obtain ⟨d, st, sz, lo, hi, rfl⟩ := kd_enum_step_open1 hs
      have hh : (KDNode.split d st sz lo hi l0 l1).height = max l0.height l1.height + 1 := rfl
      have hl0 : n0.height + l0.height < fuel := by
        have := le_max_left l0.height l1.height
        omega
      have hl1 : n0.height + l1.height < fuel := by
        have := le_max_right l0.height l1.height
        omega
      simp only [ih n0 l0 s hl0, enum_seq]
      by_cases hrt : (kd_enum_internal h trav t0 t1 n0 l0 s).1 ≠ 0
      · rw [if_pos hrt, if_pos hrt]
      · rw [if_neg hrt, if_neg hrt]
        simp only [ih n0 l1 _ hl1]

/-- Claim C14 (node-pair restoration).  Run with the caller's array `nodes` explicit,
`kd_enum` returns when the nesting depth `height nodes[0] + height nodes[1] + 1` is allowed,
and whenever it returns, with whatever return value and whatever the callbacks answered
(completion, pruned pair, pair skipped by `prune_nodes`, abort by `visit_edge` or by
`prune_nodes` below the first or the second child), the array holds the two nodes it held
on entry. -/
theorem kd_enum_nodes_restored (h : KDHeader R) (t0 t1 : KDTree R)
    (nodes : KDNode R × KDNode R) (maxr : R) (visit_edge : σ → KDEnumPair R → Int × σ)
    (prune_nodes : Option (σ → KDEnumNodePair R → Int → Int × Int × σ)) (u : σ) :
    (∃ rt s, kd_enum_fuel h t0 t1 (nodes.1.height + nodes.2.height + 1) nodes maxr visit_edge
      prune_nodes u = some (rt, s, nodes)) ∧
    (∀ fuel, kd_enum_fuel h t0 t1 fuel nodes maxr visit_edge prune_nodes u = none ∨
      ∃ rt s, kd_enum_fuel h t0 t1 fuel nodes maxr visit_edge prune_nodes u =
        some (rt, s, nodes)) := by
  obtain ⟨n0, n1⟩ := nodes
  constructor
  · exact ⟨_, _, kd_enum_internal_fuel_eq h (kd_enum_trav maxr visit_edge prune_nodes) t0 t1
      _ n0 n1 _ (Nat.lt_succ_self _)⟩
  · intro fuel
    cases hr : kd_enum_fuel h t0 t1 fuel (n0, n1) maxr visit_edge prune_nodes u with
    | none => exact Or.inl rfl
    | some r =>
      obtain ⟨rt, s, nodes1⟩ := r
      have e : nodes1 = (n0, n1) :=
        kd_enum_internal_fuel_restores h (kd_enum_trav maxr visit_edge prune_nodes) t0 t1
          fuel n0 n1 _ _ hr
      subst e
      exact Or.inr ⟨rt, s, rfl⟩

/-- Claim C16 (termination and depth bound).  On every pair of nodes of finite trees,
`kd_enum_internal` run with its nesting depth limited to
`height nodes[0] + height nodes[1] + 1`, or to any larger number, returns, and returns the
value and the callback log of the unlimited function `kd_enum_internal`, which is total. -/
theorem kd_enum_internal_depth_bound (h : KDHeader R) (trav : EnumTraverseData σ R)
    (t0 t1 : KDTree R) (n0 n1 : KDNode R) (s : EnumState σ R) (k : Nat) :
    kd_enum_internal_fuel h trav t0 t1 (n0.height + n1.height + 1 + k) (n0, n1) s =
      some ((kd_enum_internal h trav t0 t1 n0 n1 s).1,
        (kd_enum_internal h trav t0 t1 n0 n1 s).2, (n0, n1)) :=
  kd_enum_internal_fuel_eq h trav t0 t1 _ n0 n1 s (by omega)

theorem kd_force_bounds_zero (h : KDHeader R) (trav : ForceTraverseData R) (tree : KDTree R)
    (node : KDNode R) (hcut : 0 ≤ trav.r_cut2) :
    ∀ (ds : List Nat) (acc : R × R),
      (∀ d ∈ ds, (h.kd_realminmax tree (trav.pos d - node.kd_node_max d)
        (trav.pos d - node.kd_node_min d) d).1 = 0) → acc.1 = 0 →
      ∃ r2max, kd_force_bounds h trav tree node ds acc = some (0, r2max) := by
  intro ds
  induction ds with
  | nil =>
    intro acc _ hacc
    exact ⟨acc.2, by rw [kd_force_bounds, ← hacc]⟩
  | cons d ds ih =>
    intro acc hz hacc
    have hd := hz d (List.mem_cons_self _ _)
    have hnot : ¬ (0 : R) > trav.r_cut2 := not_lt.mpr hcut
    simp only [kd_force_bounds, hd, hacc, mul_zero, add_zero, hnot, if_false]
    exact ih _ (fun e he => hz e (List.mem_cons_of_mem _ he)) rfl

/-- Claim C19 (a node containing the query point is never approximated).  For a split node
whose two children are not empty and share its points, a `kd_realminmax` that answers
`realmin = 0` on an interval that contains zero, and a query point inside or on the boundary
of the node's box on every axis, `kd_force_check` (with the traverse data of `kd_force`, for
every `eta` and every cutoff, and whatever the aggregates `mass`, `xmass` of the node are)
does what it does on the two children, one after the other, after counting the node as
probed: the pseudo-particle branch, the only place where `xmass / mass` is computed, is not
taken for the node. -/
theorem kd_force_inside_not_approximated (h : KDHeader R) (tree : KDTree R) (pos : Nat → R)
    (dim start size : Nat) (lo hi : Nat → R) (link0 link1 : KDNode R)
    (mass xmass : KDAttr R) (r_cut eta : R) (func : R → (Nat → R) → Nat → Nat → R)
    (st : ForceState R)
    (hzero : ∀ d a b, d < tree.Nd → a ≤ 0 → 0 ≤ b → (h.kd_realminmax tree a b d).1 = 0)
    (hinside : ∀ d, d < tree.Nd → lo d ≤ pos d ∧ pos d ≤ hi d)
    (hsize : link0.size + link1.size = size) (h0 : 0 < link0.size) (h1 : 0 < link1.size) :
    kd_force_check h (kd_force_trav tree pos mass xmass r_cut eta func) tree
        (KDNode.split dim start size lo hi link0 link1) st =
      kd_force_check h (kd_force_trav tree pos mass xmass r_cut eta func) tree link1
        (kd_force_check h (kd_force_trav tree pos mass xmass r_cut eta func) tree link0
          { st with node_probed := st.node_probed + 1 }) := by
  have hcut : 0 ≤ (kd_force_trav tree pos mass xmass r_cut eta func).r_cut2 :=
    mul_self_nonneg r_cut
  obtain ⟨r2max, hb⟩ := kd_force_bounds_zero h
    (kd_force_trav tree pos mass xmass r_cut eta func) tree
    (KDNode.split dim start size lo hi link0 link1) hcut
    (List.range (kd_force_trav tree pos mass xmass r_cut eta func).node_ndims) (0, 0)
    (fun d hd => by
      have hlt : d < tree.Nd := List.mem_range.mp hd
      exact hzero d _ _ hlt (by
        show pos d - hi d ≤ 0
        linarith [(hinside d hlt).2]) (by
        show 0 ≤ pos d - lo d
        linarith [(hinside d hlt).1]))
    rfl
  have hgo : (KDNode.split dim start size lo hi link0 link1).dim ≥ 0 ∧
      (KDNode.split dim start size lo hi link0 link1).size > 1 := by
    constructor
    · show (dim : Int) ≥ 0
      exact Int.natCast_nonneg dim
    · show size > 1
      omega
  rw [kd_force_check]
  simp only [hgo, and_self, if_true, hb, mul_zero]
  have hl : ∀ l : R, ¬ (r2max ≤ (kd_force_trav tree pos mass xmass r_cut eta func).r_cut2 ∧
      l * l < 0) := fun l hl => absurd hl.2 (not_lt.mpr (mul_self_nonneg l))
  rw [if_neg (hl _)]

/-- Two unit masses at 10 and 11 on the line, seen from 21/2 inside the box of the root,
with cutoff 100 and `eta = 1`: the root is opened, not approximated. -/
theorem kd_force_inside_not_approximated_witness :
    (∀ d, d < tree2.Nd → (10 : ℚ) ≤ 21 / 2 ∧ (21 / 2 : ℚ) ≤ 11) ∧
      kd_force_check plainHeader
          (kd_force_trav tree2 (fun _ => 21 / 2) mass2 xmass2 100 1 linear_force) tree2 root2
          { force := fun _ => 0, node_probed := 0, node_computed := 0, pair_computed := 0,
            calls := [] } =
        kd_force_check plainHeader
          (kd_force_trav tree2 (fun _ => 21 / 2) mass2 xmass2 100 1 linear_force) tree2
          (KDNode.leaf 1 1 (fun _ => 11) (fun _ => 11))
          (kd_force_check plainHeader
            (kd_force_trav tree2 (fun _ => 21 / 2) mass2 xmass2 100 1 linear_force) tree2
            (KDNode.leaf 0 1 (fun _ => 10) (fun _ => 10))
            { force := fun _ => 0, node_probed := 0 + 1, node_computed := 0,
              pair_computed := 0, calls := [] }) :=
  ⟨fun _ _ => by norm_num,
    kd_force_inside_not_approximated plainHeader tree2 (fun _ => 21 / 2) 0 0 2 (fun _ => 10)
      (fun _ => 11) (KDNode.leaf 0 1 (fun _ => 10) (fun _ => 10))
      (KDNode.leaf 1 1 (fun _ => 11) (fun _ => 11)) mass2 xmass2 100 1 linear_force
      { force := fun _ => 0, node_probed := 0, node_computed := 0, pair_computed := 0,
        calls := [] }
      (fun d a b _ ha hb => by simp [plainHeader, ha, hb])
      (fun _ _ => by norm_num) rfl (by decide) (by decide)⟩

end Proofs

end KDCount
